import Mathlib

/-!
# protoc-gen-utcp: the generator core, embedded in Lean

A shallow embedding of `internal/generator/generator.go`, `internal/generator/config.go`
and `internal/utcp/types.go`, followed by theorems about it.

Modelling conventions.

* A Go `string` is a Lean `String`: the text is taken to be valid UTF-8, so that the runes
  `for i, r := range s` yields are the characters of the Lean string.
* The Unicode case tables behind `unicode.ToLower` are data of the Go distribution. They are
  a parameter `caseTable : Char → Char` of everything that lowers a string; the ASCII part
  of `unicode.ToLower`, which the Go function computes inline, is part of the embedding.
* A Go `map[string]V` is an association list with pairwise distinct keys (`GoMap`); a
  map, slice or pointer that the source may leave `nil` is an `Option`.
* `config *Config` is a pointer the URL builders write through. A function that may write
  to it returns the configuration it leaves behind next to its result.
* `protoreflect.Kind` and `protoreflect.Cardinality` are integer types, so a kind is an
  `Int` and the named kinds are constants.
* The descriptor graph is embedded twice. `Protogen.Graph` keeps the pointers
  `field.Message` as references, so that a message may contain itself; on it the schema
  converter is a function with fuel, the number of nested calls of
  `messageFieldToProperty` the machine allows, and `none` means that the call does not
  return within it (`messageFieldToPropertyOnGraph`, ..., `GenerateFileOnGraph`).
  `Protogen.Field` and `Protogen.Message` are the finite trees, on which the recursion is
  structural; a tree stands for a graph whose nesting is finite
  (`Graph.representsField`), and on such a graph the two embeddings agree
  (`messageFieldToPropertyOnGraph_of_represents`).
-/

/-! ## The Go standard library functions the generator calls -/

namespace Unicode

/-- Go `unicode.IsSpace`: the Latin-1 switch, then the `White_Space` range table. -/
def IsSpace (r : Char) : Bool :=
  if r.toNat ≤ 0xFF then
    r.toNat = 0x09 || r.toNat = 0x0A || r.toNat = 0x0B || r.toNat = 0x0C || r.toNat = 0x0D ||
      r.toNat = 0x20 || r.toNat = 0x85 || r.toNat = 0xA0
  else
    r.toNat = 0x1680 || (0x2000 ≤ r.toNat && r.toNat ≤ 0x200A) || r.toNat = 0x2028 ||
      r.toNat = 0x2029 || r.toNat = 0x202F || r.toNat = 0x205F || r.toNat = 0x3000

/-- Go `unicode.ToLower`. ASCII runes are handled inline by the Go function
(`'A'..'Z'` are shifted by `'a' - 'A'`, every other ASCII rune is returned as is); a rune
above `MaxASCII` is looked up in the Unicode case tables, which are data of the Go
distribution and enter here as the parameter `caseTable`. -/
def ToLower (caseTable : Char → Char) (r : Char) : Char :=
  if r.toNat ≤ 0x7F then
    (if 'A'.toNat ≤ r.toNat ∧ r.toNat ≤ 'Z'.toNat then Char.ofNat (r.toNat + ('a'.toNat - 'A'.toNat))
     else r)
  else caseTable r

/-- Runes of the Unicode category Lu (upper-case letter, so Go `unicode.IsUpper` holds of
them) that have no lower-case form in the Unicode Character Database, so that
`unicode.ToLower` returns them as they are: the Greek upsilon hook symbols U+03D2, U+03D3
and U+03D4. This is part of that set, not all of it. -/
def upperWithoutLower (r : Char) : Bool :=
  0x3D2 ≤ r.toNat && r.toNat ≤ 0x3D4

end Unicode

namespace Strings

/-- Go `strings.TrimSpace`: drop the leading and the trailing run of `unicode.IsSpace` runes. -/
def TrimSpace (s : String) : String :=
  ⟨(s.data.dropWhile Unicode.IsSpace).rdropWhile Unicode.IsSpace⟩

/-- Go `strings.TrimPrefix`: `s` without the leading `pre`, or `s` itself. -/
def TrimPrefix (s pre : String) : String :=
  if pre.data.isPrefixOf s.data then ⟨s.data.drop pre.data.length⟩ else s

/-- Go `strings.TrimSuffix`: `s` without the trailing `suf`, or `s` itself. -/
def TrimSuffix (s suf : String) : String :=
  if suf.data.isSuffixOf s.data then ⟨s.data.take (s.data.length - suf.data.length)⟩ else s

/-- The pieces of `cs` between occurrences of the rune `sep`. -/
def splitRunes (sep : Char) : List Char → List (List Char)
  | [] => [[]]
  | c :: cs =>
    if c = sep then [] :: splitRunes sep cs
    else
      match splitRunes sep cs with
      | [] => [[c]]
      | piece :: pieces => (c :: piece) :: pieces

/-- Go `strings.Split(s, sep)` for a separator of one rune (the generator splits on
`"\n"`): `n` occurrences of the separator give `n + 1` pieces, the empty string one. -/
def Split (s : String) (sep : Char) : List String :=
  (splitRunes sep s.data).map String.mk

/-- Go `strings.Join`. -/
def Join (elems : List String) (sep : String) : String :=
  ⟨List.intercalate sep.data (elems.map String.data)⟩

/-- Go `strings.ToLower` on valid UTF-8: `unicode.ToLower` applied to each rune (the
ASCII fast path of the Go function computes the same string). -/
def ToLower (caseTable : Char → Char) (s : String) : String :=
  ⟨s.data.map (Unicode.ToLower caseTable)⟩

end Strings

/-- A Go `map[string]V`: an association list whose keys are pairwise distinct. -/
abbrev GoMap (V : Type) := List (String × V)

/-- The assignment `m[k] = v`: overwrite the entry of `k`, or add one. -/
def GoMap.assign {V : Type} : GoMap V → String → V → GoMap V
  | [], k, v => [(k, v)]
  | (k', v') :: rest, k, v =>
    if k' = k then (k, v) :: rest else (k', v') :: GoMap.assign rest k v

/-- The key set of a map. -/
def GoMap.keys {V : Type} (m : GoMap V) : List String := m.map Prod.fst

/-- The lookup `m[k]`. -/
def GoMap.lookup {V : Type} (m : GoMap V) (k : String) : Option V :=
  (m.find? (fun e => e.1 = k)).map Prod.snd

/-! ## The descriptor graph (`protoreflect`, `protogen`) -/

namespace Protoreflect

/-- The type `protoreflect.Kind` (an `int8` in Go). -/
abbrev Kind := Int

def DoubleKind : Kind := 1
def FloatKind : Kind := 2
def Int64Kind : Kind := 3
def Uint64Kind : Kind := 4
def Int32Kind : Kind := 5
def Fixed64Kind : Kind := 6
def Fixed32Kind : Kind := 7
def BoolKind : Kind := 8
def StringKind : Kind := 9
def GroupKind : Kind := 10
def MessageKind : Kind := 11
def BytesKind : Kind := 12
def Uint32Kind : Kind := 13
def EnumKind : Kind := 14
def Sfixed32Kind : Kind := 15
def Sfixed64Kind : Kind := 16
def Sint32Kind : Kind := 17
def Sint64Kind : Kind := 18

/-- The type `protoreflect.Cardinality` (an `int8` in Go). -/
abbrev Cardinality := Int

def Optional : Cardinality := 1
def Required : Cardinality := 2
def Repeated : Cardinality := 3

end Protoreflect

namespace Protogen

/-- A `protogen.EnumValue`, read through `val.Desc.Name()`. -/
structure EnumValue where
  name : String
  deriving DecidableEq, Repr

/-- A `protogen.Enum`, read through `Values`. -/
structure Enum where
  values : List EnumValue
  deriving DecidableEq, Repr

mutual
/-- A `protogen.Message`, read through `Fields`. -/
inductive Message where
  | mk (fields : List Field)
/-- A `protogen.Field` as the generator reads it: `Desc.JSONName()`, `Desc.Kind()`,
`Desc.Cardinality()`, `Desc.IsMap()`, `Comments.Leading`, `Enum` and `Message` (both may
be `nil`). A value of this type is a finite tree: it stands for a field whose nesting
through `Message` is finite. A message type that contains itself, on which the recursion
of the generator does not end, has no value of this type; it is a message of a `Graph`
(below), on which the generator is embedded with fuel. -/
inductive Field where
  | mk (jsonName : String) (kind : Protoreflect.Kind) (cardinality : Protoreflect.Cardinality)
      (isMap : Bool) (leading : String) (enum : Option Enum) (message : Option Message)
end

def Message.fields : Message → List Field
  | .mk fields => fields

def Field.jsonName : Field → String
  | .mk jsonName _ _ _ _ _ _ => jsonName

def Field.kind : Field → Protoreflect.Kind
  | .mk _ kind _ _ _ _ _ => kind

def Field.cardinality : Field → Protoreflect.Cardinality
  | .mk _ _ cardinality _ _ _ _ => cardinality

def Field.isMap : Field → Bool
  | .mk _ _ _ isMap _ _ _ => isMap

/-- The method `Desc.IsList()`, which `protoreflect` documents as: the cardinality is
`Repeated` and `IsMap` reports false. -/
def Field.isList (field : Field) : Bool :=
  field.cardinality = Protoreflect.Repeated && !field.isMap

def Field.leading : Field → String
  | .mk _ _ _ _ leading _ _ => leading

def Field.enum : Field → Option Enum
  | .mk _ _ _ _ _ enum _ => enum

def Field.message : Field → Option Message
  | .mk _ _ _ _ _ _ message => message

/-- A `protogen.Method`: `Desc.Name()`, `Comments.Leading`, `Input`, `Output`. -/
structure Method where
  name : String
  leading : String
  input : Option Message
  output : Option Message

/-- A `protogen.Service`: `Desc.Name()`, `Methods`. -/
structure Service where
  name : String
  methods : List Method

/-- A `protogen.File`: `Desc.Package()`, `Services`. -/
structure File where
  package : String
  services : List Service

/-- A `protogen.Field` of a descriptor graph: the same readings as `Field`, with the
pointer `field.Message` kept as a reference to a message of the graph (`none` for `nil`). -/
structure FieldRef where
  jsonName : String
  kind : Protoreflect.Kind
  cardinality : Protoreflect.Cardinality
  isMap : Bool
  leading : String
  enum : Option Enum
  message : Option Nat
  deriving DecidableEq, Repr

/-- The method `Desc.IsList()` of a field of a graph (see `Field.isList`). -/
def FieldRef.isList (field : FieldRef) : Bool :=
  field.cardinality = Protoreflect.Repeated && !field.isMap

/-- The messages of a descriptor graph by reference: `fields target` is the list
`Fields` of the `protogen.Message` the reference `target` points to. A message may refer
to itself, as `message Node { Node next = 1; }` does. -/
structure Graph where
  fields : Nat → List FieldRef

/-- A `protogen.Method` of a descriptor graph: `Input` and `Output` are references. -/
structure MethodRef where
  name : String
  leading : String
  input : Option Nat
  output : Option Nat

/-- A `protogen.Service` of a descriptor graph. -/
structure ServiceRef where
  name : String
  methods : List MethodRef

/-- A `protogen.File` of a descriptor graph. -/
structure FileRef where
  package : String
  services : List ServiceRef

/-- The readings of a method that do not follow a message pointer. -/
def MethodRef.descriptor (method : MethodRef) : Method :=
  { name := method.name, leading := method.leading, input := none, output := none }

/-- The readings of a service that do not follow a message pointer. -/
def ServiceRef.descriptor (service : ServiceRef) : Service :=
  { name := service.name, methods := service.methods.map MethodRef.descriptor }

/-- The readings of a file that do not follow a message pointer. -/
def FileRef.descriptor (file : FileRef) : File :=
  { package := file.package, services := file.services.map ServiceRef.descriptor }

mutual
/-- Whether the tree `field` stands for the field `ref` of the graph: the readings agree,
and where the generator follows the pointer `Message` (a singular, non-map field of
message kind) both are `nil` or the fields of the tree's message stand for the fields of
the message referred to. -/
def Graph.representsField (graph : Graph) : FieldRef → Field → Bool
  | ref, .mk jsonName kind cardinality isMap leading enum message =>
    decide (ref.jsonName = jsonName) && decide (ref.kind = kind) &&
      decide (ref.cardinality = cardinality) && decide (ref.isMap = isMap) &&
      decide (ref.leading = leading) && decide (ref.enum = enum) &&
      (ref.isList || ref.isMap || !decide (ref.kind = Protoreflect.MessageKind) ||
        (match ref.message, message with
         | none, none => true
         | some target, some (.mk fields) =>
           graph.representsFields (graph.fields target) fields
         | _, _ => false))
/-- Whether the trees stand for the fields of the graph, one by one. -/
def Graph.representsFields (graph : Graph) : List FieldRef → List Field → Bool
  | [], [] => true
  | ref :: refs, field :: fields =>
    graph.representsField ref field && graph.representsFields refs fields
  | _, _ => false
end

/-- Whether the tree `message` stands for the message `target` of the graph. A message
that contains itself through singular fields of message kind has no such tree. -/
def Graph.representsMessage (graph : Graph) (target : Nat) (message : Message) : Bool :=
  graph.representsFields (graph.fields target) message.fields

end Protogen

/-! ## The output document (`internal/utcp/types.go`) -/

namespace Utcp

mutual
/-- The struct `utcp.Property`. The constraint fields `Format`, `Pattern`, `MinLength`,
`MaxLength`, `Minimum`, `Maximum` and `Default` are written nowhere in the generator and
are left out. The map `Properties` is a `GoMap Property`, written out. -/
inductive Property where
  | mk (type description : String) (enum : Option (List String)) (items : Option Items)
      (properties : Option (List (String × Property)))
/-- The struct `utcp.Items`. -/
inductive Items where
  | mk (type : String) (properties : Option (List (String × Property))) (description : String)
end

def Property.type : Property → String
  | .mk type _ _ _ _ => type

def Property.description : Property → String
  | .mk _ description _ _ _ => description

def Property.enum : Property → Option (List String)
  | .mk _ _ enum _ _ => enum

def Property.items : Property → Option Items
  | .mk _ _ _ items _ => items

def Property.properties : Property → Option (GoMap Property)
  | .mk _ _ _ _ properties => properties

def Items.type : Items → String
  | .mk type _ _ => type

def Items.properties : Items → Option (GoMap Property)
  | .mk _ properties _ => properties

def Items.description : Items → String
  | .mk _ _ description => description

/-- The struct `utcp.InputSchema`. -/
structure InputSchema where
  type : String
  properties : Option (GoMap Property)
  required : List String

/-- The struct `utcp.OutputSchema`. -/
structure OutputSchema where
  type : String
  properties : Option (GoMap Property)

/-- The struct `utcp.AuthConfig`; an unset string is `""`. -/
structure AuthConfig where
  authType : String
  token : String := ""
  apiKey : String := ""
  varName : String := ""
  clientID : String := ""
  clientSecret : String := ""
  tokenURL : String := ""
  deriving DecidableEq, Repr

/-- The struct `utcp.ToolProvider`. -/
structure ToolProvider where
  providerType : String
  url : String := ""
  httpMethod : String := ""
  auth : Option AuthConfig := none
  headers : Option (GoMap String) := none
  deriving DecidableEq, Repr

/-- The struct `utcp.Tool`. -/
structure Tool where
  name : String
  description : String
  inputs : InputSchema
  outputs : Option OutputSchema
  toolProvider : Option ToolProvider

/-- The struct `utcp.ToolCollection`. -/
structure ToolCollection where
  tools : List Tool

end Utcp

/-! ## The generator (`internal/generator`) -/

namespace Generator

open Protogen Utcp

/-- The struct `Config` of `config.go`. -/
structure Config where
  BaseURL : String
  ProviderType : String
  AuthType : String
  deriving DecidableEq, Repr

/-- The function `protoTypeToJSONType`: the `switch` over the field kind. -/
def protoTypeToJSONType (kind : Protoreflect.Kind) : String :=
  if kind = Protoreflect.BoolKind then "boolean"
  else if kind = Protoreflect.Int32Kind ∨ kind = Protoreflect.Sint32Kind ∨
      kind = Protoreflect.Uint32Kind ∨ kind = Protoreflect.Int64Kind ∨
      kind = Protoreflect.Sint64Kind ∨ kind = Protoreflect.Uint64Kind ∨
      kind = Protoreflect.Sfixed32Kind ∨ kind = Protoreflect.Fixed32Kind ∨
      kind = Protoreflect.Sfixed64Kind ∨ kind = Protoreflect.Fixed64Kind then "integer"
  else if kind = Protoreflect.FloatKind ∨ kind = Protoreflect.DoubleKind then "number"
  else if kind = Protoreflect.StringKind then "string"
  else if kind = Protoreflect.BytesKind then "string"
  else if kind = Protoreflect.MessageKind then "object"
  else if kind = Protoreflect.EnumKind then "string"
  else "string"

/-- One turn of the loop of `extractComment` over the lines: clean `line` and keep it
when something is left. -/
def extractCommentStep (cleaned : List String) (line : String) : List String :=
  let line := Strings.TrimSpace line
  let line := Strings.TrimPrefix line "//"
  let line := Strings.TrimPrefix line "/*"
  let line := Strings.TrimSuffix line "*/"
  let line := Strings.TrimSpace line
  if line ≠ "" then cleaned ++ [line] else cleaned

/-- The function `extractComment`. -/
def extractComment (comments : String) : String :=
  if comments = "" then ""
  else
    let text := Strings.TrimSpace comments
    let lines := Strings.Split text '\n'
    let cleaned := lines.foldl extractCommentStep []
    Strings.Join cleaned " "

/-- One turn of the loop of `toSnakeCase`, at the rune `s[i]` of `s`: write an underscore
when the rune is an upper-case ASCII letter past the start whose left neighbour `s[i-1]` or
right neighbour `s[i+1]` is a lower-case ASCII letter, then write the rune.

The Go loop indexes bytes. In valid UTF-8 a byte in `'a'..'z'` is a whole rune, the rune
`r` tested here is one byte wide, so `s[i-1]` and `s[i+1]` are lower-case letters exactly
when the neighbouring runes are. -/
def toSnakeCaseStep (s : List Char) (result : List Char) (i : Nat) : List Char :=
  let r := s.getD i (Char.ofNat 0)
  let result :=
    if 0 < i ∧ 'A' ≤ r ∧ r ≤ 'Z' then
      let prevIsLower : Prop := 'a' ≤ s.getD (i - 1) (Char.ofNat 0) ∧ s.getD (i - 1) (Char.ofNat 0) ≤ 'z'
      let nextIsLower : Prop :=
        i < s.length - 1 ∧ 'a' ≤ s.getD (i + 1) (Char.ofNat 0) ∧ s.getD (i + 1) (Char.ofNat 0) ≤ 'z'
      if prevIsLower ∨ nextIsLower then result ++ ['_'] else result
    else result
  result ++ [r]

/-- The function `toSnakeCase`. The case tables of `unicode.ToLower` are the parameter
`caseTable` (see `Unicode.ToLower`). -/
def toSnakeCase (caseTable : Char → Char) (s : String) : String :=
  if s.data.length = 0 then s
  else
    let result := (List.range s.data.length).foldl (toSnakeCaseStep s.data) []
    Strings.ToLower caseTable ⟨result⟩

mutual
/-- The function `messageFieldToProperty` on a finite descriptor tree, where the recursion
into nested messages is structural and ends. On a descriptor graph the function is
`messageFieldToPropertyOnGraph`, which need not return; the two agree wherever a tree
stands for the graph. -/
def messageFieldToProperty : Protogen.Field → Property
  | .mk jsonName kind cardinality isMap leading enum message =>
    let field := Protogen.Field.mk jsonName kind cardinality isMap leading enum message
    let description := extractComment field.leading
    if field.isList then
      .mk "array" description none
        (some (.mk (protoTypeToJSONType field.kind) none description)) none
    else if field.isMap then
      .mk "object" description none none none
    else
      let type := protoTypeToJSONType field.kind
      let enumValues : Option (List String) :=
        match enum with
        | some e =>
          if field.kind = Protoreflect.EnumKind then
            some (e.values.foldl (fun enumValues val => enumValues ++ [val.name]) [])
          else none
        | none => none
      match message with
      | some (.mk fields) =>
        if field.kind = Protoreflect.MessageKind then
          .mk "object" description enumValues none (some (nestedProperties fields []))
        else .mk type description enumValues none none
      | none => .mk type description enumValues none none
/-- The loop `for _, nestedField := range field.Message.Fields` of
`messageFieldToProperty`, from the map built so far. -/
def nestedProperties :
    List Protogen.Field → List (String × Property) → List (String × Property)
  | [], properties => properties
  | nestedField :: rest, properties =>
    nestedProperties rest
      (GoMap.assign properties nestedField.jsonName (messageFieldToProperty nestedField))
end

/-- The function `generateInputSchema`. -/
def generateInputSchema (message : Message) : InputSchema :=
  let schema : InputSchema := { type := "object", properties := some [], required := [] }
  message.fields.foldl
    (fun schema field =>
      let prop := messageFieldToProperty field
      let schema :=
        { schema with
          properties := some (GoMap.assign (schema.properties.getD []) field.jsonName prop) }
      if field.cardinality = Protoreflect.Required then
        { schema with required := schema.required ++ [field.jsonName] }
      else schema)
    schema

/-- The function `generateOutputSchema`. -/
def generateOutputSchema (message : Message) : OutputSchema :=
  let schema : OutputSchema := { type := "object", properties := some [] }
  message.fields.foldl
    (fun schema field =>
      let prop := messageFieldToProperty field
      { schema with
        properties := some (GoMap.assign (schema.properties.getD []) field.jsonName prop) })
    schema

/-- The function `generateHTTPURL`, with the configuration it leaves behind. -/
def generateHTTPURL (service : Service) (method : Method) (file : File) (config : Config) :
    String × Config :=
  let config :=
    if config.BaseURL = "" then { config with BaseURL := "https://api.example.com" } else config
  (Strings.TrimSuffix config.BaseURL "/" ++ "/twirp/" ++ file.package ++ "." ++ service.name ++
    "/" ++ method.name, config)

/-- The function `generateGRPCURL`, with the configuration it leaves behind. -/
def generateGRPCURL (service : Service) (method : Method) (file : File) (config : Config) :
    String × Config :=
  let config :=
    if config.BaseURL = "" then { config with BaseURL := "grpc://api.example.com" } else config
  (Strings.TrimSuffix config.BaseURL "/" ++ "/" ++ file.package ++ "." ++ service.name ++
    "/" ++ method.name, config)

/-- The function `generateToolProvider`, with the configuration it leaves behind. -/
def generateToolProvider (service : Service) (method : Method) (file : File) (config : Config) :
    ToolProvider × Config :=
  let provider : ToolProvider := { providerType := config.ProviderType }
  let step : ToolProvider × Config :=
    if config.ProviderType = "http" then
      let r := generateHTTPURL service method file config
      ({ provider with
          url := r.1, httpMethod := "POST",
          headers := some [("Content-Type", "application/json")] }, r.2)
    else if config.ProviderType = "grpc" ∨ config.ProviderType = "connectrpc" then
      let r := generateGRPCURL service method file config
      ({ provider with url := r.1 }, r.2)
    else
      ({ provider with
          url := config.BaseURL ++ "/" ++ file.package ++ "." ++ service.name ++ "/" ++
            method.name }, config)
  let provider := step.1
  let config := step.2
  let provider :=
    if config.AuthType ≠ "" then
      let auth : AuthConfig := { authType := config.AuthType }
      let auth := if config.AuthType = "bearer" then { auth with token := "$\x7bauth_token\x7d" } else auth
      { provider with auth := some auth }
    else provider
  (provider, config)

/-- The function `generateTool`, with the configuration it leaves behind. -/
def generateTool (caseTable : Char → Char) (service : Service) (method : Method) (file : File)
    (config : Config) : Tool × Config :=
  let toolName := toSnakeCase caseTable method.name
  let description := extractComment method.leading
  let description :=
    if description = "" then method.name ++ " method in " ++ service.name ++ " service"
    else description
  let inputs : InputSchema :=
    match method.input with
    | some message => generateInputSchema message
    | none => { type := "object", properties := some [], required := [] }
  let outputs : Option OutputSchema := method.output.map generateOutputSchema
  let r := generateToolProvider service method file config
  ({ name := toolName, description := description, inputs := inputs, outputs := outputs,
     toolProvider := some r.1 }, r.2)

/-- The function `generateServiceTools`, with the configuration it leaves behind. -/
def generateServiceTools (caseTable : Char → Char) (service : Service) (file : File)
    (config : Config) : List Tool × Config :=
  service.methods.foldl
    (fun acc method =>
      let r := generateTool caseTable service method file acc.2
      (acc.1 ++ [r.1], r.2))
    ([], config)

/-- The function `GenerateFile` up to serialisation: the tool collection handed to
`json.MarshalIndent` (`none` when the file declares no service and nothing is generated),
with the configuration it leaves behind. -/
def GenerateFile (caseTable : Char → Char) (file : File) (config : Config) :
    Option ToolCollection × Config :=
  if file.services.length = 0 then (none, config)
  else
    let r :=
      file.services.foldl
        (fun acc service =>
          let serviceTools := generateServiceTools caseTable service file acc.2
          (acc.1 ++ serviceTools.1, serviceTools.2))
        (([] : List Tool), config)
    (some { tools := r.1 }, r.2)

/-- The loop `for _, nestedField := range field.Message.Fields` of
`messageFieldToProperty` on a descriptor graph, where `convert` is the recursive call:
the loop does not finish when one of the calls does not return. -/
def nestedPropertiesOnGraph (convert : FieldRef → Option Property) :
    List FieldRef → List (String × Property) → Option (List (String × Property))
  | [], properties => some properties
  | nestedField :: rest, properties =>
    match convert nestedField with
    | none => none
    | some property =>
      nestedPropertiesOnGraph convert rest
        (GoMap.assign properties nestedField.jsonName property)

/-- The function `messageFieldToProperty` on a descriptor graph, which may hold a message
that contains itself. `fuel` is the number of nested calls of the function the machine
allows; the result is `none` when the call does not return within it. -/
def messageFieldToPropertyOnGraph (graph : Graph) : Nat → FieldRef → Option Property
  | 0, _ => none
  | fuel + 1, field =>
    let description := extractComment field.leading
    if field.isList then
      some (.mk "array" description none
        (some (.mk (protoTypeToJSONType field.kind) none description)) none)
    else if field.isMap then
      some (.mk "object" description none none none)
    else
      let type := protoTypeToJSONType field.kind
      let enumValues : Option (List String) :=
        match field.enum with
        | some e =>
          if field.kind = Protoreflect.EnumKind then
            some (e.values.foldl (fun enumValues val => enumValues ++ [val.name]) [])
          else none
        | none => none
      match field.message with
      | some target =>
        if field.kind = Protoreflect.MessageKind then
          (nestedPropertiesOnGraph (messageFieldToPropertyOnGraph graph fuel)
              (graph.fields target) []).map
            (fun properties => .mk "object" description enumValues none (some properties))
        else some (.mk type description enumValues none none)
      | none => some (.mk type description enumValues none none)

/-- One turn of the loop of `generateInputSchema`, given the property of the field. -/
def generateInputSchemaStep (schema : InputSchema) (field : FieldRef) (prop : Property) :
    InputSchema :=
  let schema : InputSchema :=
    { schema with
      properties := some (GoMap.assign (schema.properties.getD []) field.jsonName prop) }
  if field.cardinality = Protoreflect.Required then
    { schema with required := schema.required ++ [field.jsonName] }
  else schema

/-- The function `generateInputSchema` on a descriptor graph (`none`: a call of
`messageFieldToProperty` does not return within `fuel` nested calls). -/
def generateInputSchemaOnGraph (graph : Graph) (fuel : Nat) (message : Nat) :
    Option InputSchema :=
  (graph.fields message).foldl
    (fun acc field =>
      match acc with
      | none => none
      | some schema =>
        match messageFieldToPropertyOnGraph graph fuel field with
        | none => none
        | some prop => some (generateInputSchemaStep schema field prop))
    (some { type := "object", properties := some [], required := [] })

/-- The function `generateOutputSchema` on a descriptor graph. -/
def generateOutputSchemaOnGraph (graph : Graph) (fuel : Nat) (message : Nat) :
    Option OutputSchema :=
  (graph.fields message).foldl
    (fun acc field =>
      match acc with
      | none => none
      | some schema =>
        match messageFieldToPropertyOnGraph graph fuel field with
        | none => none
        | some prop =>
          some
            { schema with
              properties :=
                some (GoMap.assign (schema.properties.getD []) field.jsonName prop) })
    (some { type := "object", properties := some [] })

/-- The function `generateTool` on a descriptor graph, with the configuration it leaves
behind. `generateToolProvider` reads names only, so it is the function of the tree
embedding. -/
def generateToolOnGraph (graph : Graph) (caseTable : Char → Char) (fuel : Nat)
    (service : ServiceRef) (method : MethodRef) (file : FileRef) (config : Config) :
    Option (Tool × Config) :=
  let toolName := toSnakeCase caseTable method.name
  let description := extractComment method.leading
  let description :=
    if description = "" then method.name ++ " method in " ++ service.name ++ " service"
    else description
  let inputs : Option InputSchema :=
    match method.input with
    | some message => generateInputSchemaOnGraph graph fuel message
    | none => some { type := "object", properties := some [], required := [] }
  let outputs : Option (Option OutputSchema) :=
    match method.output with
    | some message => (generateOutputSchemaOnGraph graph fuel message).map some
    | none => some none
  match inputs, outputs with
  | some inputs, some outputs =>
    let r := generateToolProvider service.descriptor method.descriptor file.descriptor config
    some ({ name := toolName, description := description, inputs := inputs,
            outputs := outputs, toolProvider := some r.1 }, r.2)
  | _, _ => none

/-- The function `generateServiceTools` on a descriptor graph. -/
def generateServiceToolsOnGraph (graph : Graph) (caseTable : Char → Char) (fuel : Nat)
    (service : ServiceRef) (file : FileRef) (config : Config) :
    Option (List Tool × Config) :=
  service.methods.foldl
    (fun acc method =>
      match acc with
      | none => none
      | some acc =>
        match generateToolOnGraph graph caseTable fuel service method file acc.2 with
        | none => none
        | some r => some (acc.1 ++ [r.1], r.2))
    (some ([], config))

/-- The function `GenerateFile` on a descriptor graph, up to serialisation: `none` when
the call does not return, otherwise the tool collection handed to `json.MarshalIndent`
(`none` when the file declares no service) with the configuration left behind. -/
def GenerateFileOnGraph (graph : Graph) (caseTable : Char → Char) (fuel : Nat)
    (file : FileRef) (config : Config) : Option (Option ToolCollection × Config) :=
  if file.services.length = 0 then some (none, config)
  else
    (file.services.foldl
      (fun acc service =>
        match acc with
        | none => none
        | some acc =>
          match generateServiceToolsOnGraph graph caseTable fuel service file acc.2 with
          | none => none
          | some serviceTools => some (acc.1 ++ serviceTools.1, serviceTools.2))
      (some (([] : List Tool), config))).map
      (fun r => (some { tools := r.1 }, r.2))

end Generator

/-! ## Notions the statements below use -/

/-- A string with one trailing `"/"` removed, when it ends in one. -/
def trimTrailingSlash (b : String) : String :=
  if b.data.getLast? = some '/' then ⟨b.data.dropLast⟩ else b

namespace Generator

/-- Whether the loop of `toSnakeCase` writes an underscore before the rune `r`, from the
rune before it (`none` at the start of the string) and the runes after it. -/
def underscoreBefore (prev : Option Char) (r : Char) (rest : List Char) : Bool :=
  match prev with
  | none => false
  | some p =>
    r.isUpper && (p.isLower || (match rest with
      | next :: _ => next.isLower
      | [] => false))

/-- The loop of `toSnakeCase` as a recursion over the runes still to read, with the rune
read last; `toSnakeCase_loop` proves it equal to the loop over the indices. -/
def snakeRunes : Option Char → List Char → List Char
  | _, [] => []
  | prev, r :: rest =>
    (if underscoreBefore prev r rest then ['_'] else []) ++ r :: snakeRunes (some r) rest

/-- A capitalised word: an upper-case ASCII letter, then one or more lower-case ASCII
letters. -/
def isCapitalised (w : List Char) : Bool :=
  match w with
  | u :: l :: ls => u.isUpper && (l :: ls).all Char.isLower
  | _ => false

/-- An acronym: one or more upper-case ASCII letters. -/
def isAcronym (w : List Char) : Bool :=
  match w with
  | u :: us => (u :: us).all Char.isUpper
  | [] => false

/-- A word of an identifier: a capitalised word or an acronym. -/
def isWord (w : List Char) : Bool := isCapitalised w || isAcronym w

/-- A leading word of a camel-case identifier: one or more lower-case ASCII letters. -/
def isLowerWord (w : List Char) : Bool :=
  match w with
  | l :: ls => (l :: ls).all Char.isLower
  | [] => false

/-- One line of a comment, cleaned as the specification words it: trim the whitespace,
strip a leading `//`, strip a leading `/*`, strip a trailing `*/`, trim again. -/
def cleanLine (line : String) : String :=
  Strings.TrimSpace
    (Strings.TrimSuffix
      (Strings.TrimPrefix (Strings.TrimPrefix (Strings.TrimSpace line) "//") "/*") "*/")

/-- The comment extractor as the specification words it, on the raw text: split into
lines, clean each line, drop the lines that became empty, join the others with one
space. -/
def extractCommentSpec (text : String) : String :=
  Strings.Join (((Strings.Split text '\n').map cleanLine).filter (fun line => line ≠ "")) " "

/-- The descriptor graph of `message Node { Node next = 1; }`: the one message, at every
reference, has the singular field `next` of message kind that refers to the message
itself. -/
def nodeGraph : Protogen.Graph :=
  ⟨fun _ => [⟨"next", Protoreflect.MessageKind, Protoreflect.Optional, false, "", none,
    some 0⟩]⟩

/-- A file whose one method `Walk` takes and returns the message `Node` of `nodeGraph`. -/
def nodeFile : Protogen.FileRef :=
  ⟨"acme.v1", [⟨"Lists", [⟨"Walk", "", some 0, some 0⟩]⟩]⟩

/-- A descriptor graph without a cycle through singular fields: message 0 is
`Order { required int32 id; repeated Order related; Buyer buyer; }` and message 1 is
`Buyer { string name; }`. The repeated field refers back to `Order`. -/
def orderGraph : Protogen.Graph :=
  ⟨fun target =>
    if target = 0 then
      [⟨"id", Protoreflect.Int32Kind, Protoreflect.Required, false, "", none, none⟩,
       ⟨"related", Protoreflect.MessageKind, Protoreflect.Repeated, false, "", none, some 0⟩,
       ⟨"buyer", Protoreflect.MessageKind, Protoreflect.Optional, false, "", none, some 1⟩]
    else if target = 1 then
      [⟨"name", Protoreflect.StringKind, Protoreflect.Optional, false, "", none, none⟩]
    else []⟩

/-- The tree of the message `Order` of `orderGraph`. -/
def orderMessage : Protogen.Message :=
  .mk
    [.mk "id" Protoreflect.Int32Kind Protoreflect.Required false "" none none,
     .mk "related" Protoreflect.MessageKind Protoreflect.Repeated false "" none none,
     .mk "buyer" Protoreflect.MessageKind Protoreflect.Optional false "" none
       (some (.mk
         [.mk "name" Protoreflect.StringKind Protoreflect.Optional false "" none none]))]

/-- The tree of the message `Buyer` of `orderGraph`. -/
def buyerMessage : Protogen.Message :=
  .mk [.mk "name" Protoreflect.StringKind Protoreflect.Optional false "" none none]

/-- A file over `orderGraph`: the service `Orders` with the methods `Place` (takes an
`Order`, returns a `Buyer`) and `GetByID` (takes a `Buyer`, returns an `Order`). -/
def orderFile : Protogen.FileRef :=
  ⟨"acme.v1", [⟨"Orders", [⟨"Place", "", some 0, some 1⟩, ⟨"GetByID", "", some 1, some 0⟩]⟩]⟩

/-- A field of message kind with a nested message, as a tree. -/
def orderField : Protogen.Field :=
  .mk "order" Protoreflect.MessageKind Protoreflect.Optional false "" none (some orderMessage)

end Generator

namespace Utcp

mutual
/-- The nodes of a property tree: the property itself and every property nested under
`Properties`, at any depth. -/
def Property.nodes : Property → List Property
  | .mk type description enum items properties =>
    .mk type description enum items properties :: Property.nodesOfOption properties
/-- The nodes of the trees of an optional map. -/
def Property.nodesOfOption : Option (List (String × Property)) → List Property
  | none => []
  | some properties => Property.nodesOfMap properties
/-- The nodes of the trees of a map. -/
def Property.nodesOfMap : List (String × Property) → List Property
  | [] => []
  | (_, property) :: rest => property.nodes ++ Property.nodesOfMap rest
end

end Utcp

namespace Protogen

mutual
/-- The fields of a descriptor tree: the field itself and every field of its message,
at any depth. -/
def Field.descendants : Field → List Field
  | .mk jsonName kind cardinality isMap leading enum message =>
    .mk jsonName kind cardinality isMap leading enum message ::
      (match message with
       | some (.mk fields) => Field.descendantsOfList fields
       | none => [])
/-- The fields of the trees of a list of fields. -/
def Field.descendantsOfList : List Field → List Field
  | [] => []
  | field :: rest => field.descendants ++ Field.descendantsOfList rest
end

end Protogen

/-! ## The standard library model -/

theorem Strings.TrimSuffix_slash (s : String) :
    Strings.TrimSuffix s "/" = trimTrailingSlash s := by
  unfold Strings.TrimSuffix trimTrailingSlash
  have h : ("/" : String).data = ['/'] := rfl
  rw [h]
  rcases List.eq_nil_or_concat s.data with h0 | ⟨l, c, hl⟩
  · simp [h0, List.isSuffixOf]
  · rw [hl]
    have hs : ['/'] <:+ l ++ [c] ↔ c = '/' := by
      constructor
      · rintro ⟨t, ht⟩
        have := congrArg List.getLast? ht
        simpa using this.symm
      · rintro rfl
        exact ⟨l, rfl⟩
    simp [List.dropLast_concat, hs]

theorem Char.goUpper_iff (r : Char) : ('A' ≤ r ∧ r ≤ 'Z') ↔ r.isUpper = true := by
  simp [Char.isUpper, Char.le_def]

theorem Char.goLower_iff (r : Char) : ('a' ≤ r ∧ r ≤ 'z') ↔ r.isLower = true := by
  simp [Char.isLower, Char.le_def]

theorem Char.isUpper_iff_toNat (r : Char) : r.isUpper = true ↔ 65 ≤ r.toNat ∧ r.toNat ≤ 90 := by
  simp only [Char.isUpper, Char.toNat, Bool.and_eq_true, decide_eq_true_eq, ge_iff_le]
  exact Iff.rfl

theorem Char.isLower_iff_toNat (r : Char) : r.isLower = true ↔ 97 ≤ r.toNat ∧ r.toNat ≤ 122 := by
  simp only [Char.isLower, Char.toNat, Bool.and_eq_true, decide_eq_true_eq, ge_iff_le]
  exact Iff.rfl

theorem Char.toNat_ofNat_of_lt (n : Nat) (h : n < 0xd800) : (Char.ofNat n).toNat = n := by
  unfold Char.ofNat
  have hv : n.isValidChar := Or.inl h
  simp only [hv, dite_true]
  unfold Char.ofNatAux Char.toNat
  simp only [UInt32.toNat, BitVec.toNat_ofNatLt]

namespace Unicode

theorem ToLower_of_isUpper (tbl : Char → Char) (r : Char) (h : r.isUpper = true) :
    ToLower tbl r = Char.ofNat (r.toNat + 32) := by
  have h' := (Char.isUpper_iff_toNat r).1 h
  have h1 : r.toNat ≤ 0x7F := by omega
  have h2 : 'A'.toNat ≤ r.toNat ∧ r.toNat ≤ 'Z'.toNat := h'
  unfold ToLower
  rw [if_pos h1, if_pos h2]
  rfl

theorem ToLower_of_ascii_not_isUpper (tbl : Char → Char) (r : Char) (ha : r.toNat ≤ 0x7F)
    (h : r.isUpper = false) : ToLower tbl r = r := by
  have h' : ¬ ('A'.toNat ≤ r.toNat ∧ r.toNat ≤ 'Z'.toNat) := by
    intro hc
    have := (Char.isUpper_iff_toNat r).2 hc
    simp [h] at this
  unfold ToLower
  rw [if_pos ha, if_neg h']

/-- On ASCII the Go function is the ASCII lower-casing `Char.toLower`. -/
theorem ToLower_ascii (tbl : Char → Char) (r : Char) (ha : r.toNat ≤ 0x7F) :
    ToLower tbl r = r.toLower := by
  unfold ToLower Char.toLower
  rw [if_pos ha]
  rfl

end Unicode

/-! ## Provider synthesis -/

namespace Generator

open Protogen Utcp

/-- C1. With `ProviderType = "http"` the provider's URL is the base URL (the placeholder
`"https://api.example.com"` when `BaseURL` is empty) without its trailing slash, followed
by `/twirp/{package}.{Service}/{Method}`; its HTTP method is `"POST"` and its headers are
exactly `Content-Type: application/json`. -/
theorem generateToolProvider_http (service : Service) (method : Method) (file : File)
    (config : Config) (h : config.ProviderType = "http") :
    (generateToolProvider service method file config).1.url =
        trimTrailingSlash
            (if config.BaseURL = "" then "https://api.example.com" else config.BaseURL) ++
          "/twirp/" ++ file.package ++ "." ++ service.name ++ "/" ++ method.name ∧
      (generateToolProvider service method file config).1.httpMethod = "POST" ∧
      (generateToolProvider service method file config).1.headers =
        some [("Content-Type", "application/json")] := by
  simp only [generateToolProvider, generateHTTPURL, h, if_pos, Strings.TrimSuffix_slash]
  by_cases hb : config.BaseURL = "" <;> by_cases ha : config.AuthType = "" <;> simp [hb, ha]

/-- C1 at the input of the specification: base `https://api.example.com`, package
`acme.v1`, service `Widgets`, method `Create`. -/
theorem generateToolProvider_http_witness :
    (generateToolProvider ⟨"Widgets", []⟩ ⟨"Create", "", none, none⟩ ⟨"acme.v1", []⟩
        ⟨"https://api.example.com", "http", ""⟩).1.url =
      "https://api.example.com/twirp/acme.v1.Widgets/Create" ∧
    (generateToolProvider ⟨"Widgets", []⟩ ⟨"Create", "", none, none⟩ ⟨"acme.v1", []⟩
        ⟨"https://api.example.com", "http", ""⟩).1.httpMethod = "POST" ∧
    (generateToolProvider ⟨"Widgets", []⟩ ⟨"Create", "", none, none⟩ ⟨"acme.v1", []⟩
        ⟨"https://api.example.com", "http", ""⟩).1.headers =
      some [("Content-Type", "application/json")] :=
  have h := generateToolProvider_http ⟨"Widgets", []⟩ ⟨"Create", "", none, none⟩
    ⟨"acme.v1", []⟩ ⟨"https://api.example.com", "http", ""⟩ rfl
  ⟨h.1.trans (by decide), h.2⟩

/-- C2. Whatever the provider type, the provider carries an auth block exactly when
`AuthType` is non-empty; the block holds that `AuthType`, the token `${auth_token}` when
the type is `"bearer"` and no token otherwise, and none of the API-key and OAuth2 fields. -/
theorem generateToolProvider_auth (service : Service) (method : Method) (file : File)
    (config : Config) :
    (generateToolProvider service method file config).1.auth =
      if config.AuthType = "" then none
      else some
        { authType := config.AuthType,
          token := if config.AuthType = "bearer" then "$\x7bauth_token\x7d" else "",
          apiKey := "", varName := "", clientID := "", clientSecret := "", tokenURL := "" } := by
  have hh : (generateHTTPURL service method file config).2.AuthType = config.AuthType := by
    unfold generateHTTPURL
    split <;> rfl
  have hg : (generateGRPCURL service method file config).2.AuthType = config.AuthType := by
    unfold generateGRPCURL
    split <;> rfl
  unfold generateToolProvider
  by_cases h1 : config.ProviderType = "http"
  · by_cases ha : config.AuthType = "" <;> by_cases hb : config.AuthType = "bearer" <;>
      simp [h1, hh, ha, hb]
  · by_cases h2 : config.ProviderType = "grpc" ∨ config.ProviderType = "connectrpc"
    · by_cases ha : config.AuthType = "" <;> by_cases hb : config.AuthType = "bearer" <;>
        simp [h1, h2, hg, ha, hb]
    · by_cases ha : config.AuthType = "" <;> by_cases hb : config.AuthType = "bearer" <;>
        simp [h1, h2, ha, hb]

/-- C3. With `ProviderType` `"grpc"` or `"connectrpc"` the provider's URL is the base URL
(the placeholder `"grpc://api.example.com"` when `BaseURL` is empty) without its trailing
slash, followed by `/{package}.{Service}/{Method}`; no HTTP method and no headers are set;
and with an empty `BaseURL` the URL starts with `grpc://api.example.com/`. -/
theorem generateToolProvider_grpc (service : Service) (method : Method) (file : File)
    (config : Config)
    (h : config.ProviderType = "grpc" ∨ config.ProviderType = "connectrpc") :
    (generateToolProvider service method file config).1.url =
        trimTrailingSlash
            (if config.BaseURL = "" then "grpc://api.example.com" else config.BaseURL) ++
          "/" ++ file.package ++ "." ++ service.name ++ "/" ++ method.name ∧
      (generateToolProvider service method file config).1.httpMethod = "" ∧
      (generateToolProvider service method file config).1.headers = none ∧
      (config.BaseURL = "" →
        "grpc://api.example.com/".data <+:
          (generateToolProvider service method file config).1.url.data) := by
  have hne : config.ProviderType ≠ "http" := by
    rcases h with h | h <;> rw [h] <;> decide
  have hurl : (generateToolProvider service method file config).1.url =
      trimTrailingSlash
          (if config.BaseURL = "" then "grpc://api.example.com" else config.BaseURL) ++
        "/" ++ file.package ++ "." ++ service.name ++ "/" ++ method.name := by
    simp only [generateToolProvider, generateGRPCURL, hne, h, if_pos, if_false,
      Strings.TrimSuffix_slash]
    by_cases hb : config.BaseURL = "" <;> by_cases ha : config.AuthType = "" <;> simp [hb, ha]
  refine ⟨hurl, ?_, ?_, ?_⟩
  · simp only [generateToolProvider, hne, h, if_pos, if_false]
    by_cases ha : config.AuthType = "" <;> simp [ha, generateGRPCURL] <;> split <;> simp [ha]
  · simp only [generateToolProvider, hne, h, if_pos, if_false]
    by_cases ha : config.AuthType = "" <;> simp [ha, generateGRPCURL] <;> split <;> simp [ha]
  · intro hb
    rw [hurl, if_pos hb]
    have ht : trimTrailingSlash "grpc://api.example.com" = "grpc://api.example.com" := by decide
    rw [ht]
    simp only [String.data_append, List.append_assoc]
    exact ⟨_, rfl⟩

/-- C3 at a concrete input: provider type `grpc`, empty `BaseURL`. -/
theorem generateToolProvider_grpc_witness :
    (generateToolProvider ⟨"Widgets", []⟩ ⟨"Create", "", none, none⟩ ⟨"acme.v1", []⟩
        ⟨"", "grpc", ""⟩).1.url = "grpc://api.example.com/acme.v1.Widgets/Create" ∧
    (generateToolProvider ⟨"Widgets", []⟩ ⟨"Create", "", none, none⟩ ⟨"acme.v1", []⟩
        ⟨"", "grpc", ""⟩).1.httpMethod = "" ∧
    (generateToolProvider ⟨"Widgets", []⟩ ⟨"Create", "", none, none⟩ ⟨"acme.v1", []⟩
        ⟨"", "grpc", ""⟩).1.headers = none ∧
    "grpc://api.example.com/".data <+:
      (generateToolProvider ⟨"Widgets", []⟩ ⟨"Create", "", none, none⟩ ⟨"acme.v1", []⟩
        ⟨"", "grpc", ""⟩).1.url.data :=
  have h := generateToolProvider_grpc ⟨"Widgets", []⟩ ⟨"Create", "", none, none⟩
    ⟨"acme.v1", []⟩ ⟨"", "grpc", ""⟩ (Or.inl rfl)
  ⟨h.1.trans (by decide), h.2.1, h.2.2.1, h.2.2.2 rfl⟩

/-! ## The schema converter: the loops and the tree -/

theorem nestedProperties_eq_foldl (fields : List Protogen.Field) (properties : List (String × Property)) :
    nestedProperties fields properties =
      fields.foldl (fun acc f => GoMap.assign acc f.jsonName (messageFieldToProperty f))
        properties := by
  induction fields generalizing properties with
  | nil => simp [nestedProperties]
  | cons f fs ih => simp [nestedProperties, ih]

theorem enumLoop_eq_map (values : List EnumValue) (acc : List String) :
    values.foldl (fun enumValues val => enumValues ++ [val.name]) acc =
      acc ++ values.map EnumValue.name := by
  induction values generalizing acc with
  | nil => simp
  | cons v vs ih => simp [ih]

/-- The body of `messageFieldToProperty`, read through the accessors of the field. -/
theorem messageFieldToProperty_eq (f : Protogen.Field) :
    messageFieldToProperty f =
      if f.isList = true then
        .mk "array" (extractComment f.leading) none
          (some (.mk (protoTypeToJSONType f.kind) none (extractComment f.leading))) none
      else if f.isMap = true then .mk "object" (extractComment f.leading) none none none
      else if f.kind = Protoreflect.MessageKind ∧ f.message.isSome = true then
        .mk "object" (extractComment f.leading)
          (if f.kind = Protoreflect.EnumKind then f.enum.map (fun e => e.values.map EnumValue.name)
           else none)
          none (some (nestedProperties ((f.message.map Message.fields).getD []) []))
      else
        .mk (protoTypeToJSONType f.kind) (extractComment f.leading)
          (if f.kind = Protoreflect.EnumKind then f.enum.map (fun e => e.values.map EnumValue.name)
           else none)
          none none := by
  cases f with
  | mk j k c m l e msg =>
    unfold messageFieldToProperty
    simp only [Field.kind, Field.leading, Field.isMap, Field.enum, Field.message]
    split
    · rfl
    · split
      · rfl
      · rcases msg with _ | ⟨⟨fields⟩⟩ <;> cases e <;> simp [enumLoop_eq_map, Message.fields]

theorem protoTypeToJSONType_ne_array (kind : Protoreflect.Kind) :
    protoTypeToJSONType kind ≠ "array" := by
  unfold protoTypeToJSONType
  split_ifs <;> decide

/-- The invariant of one node, against the field it was built from. -/
theorem messageFieldToProperty_node (g : Protogen.Field) :
    ((messageFieldToProperty g).items.isSome = true ↔ (messageFieldToProperty g).type = "array") ∧
    ((messageFieldToProperty g).properties.isSome = true ↔
      ((messageFieldToProperty g).type = "object" ∧ g.isList = false ∧ g.isMap = false ∧
        g.kind = Protoreflect.MessageKind ∧ g.message.isSome = true)) := by
  rw [messageFieldToProperty_eq]
  by_cases hl : g.isList = true
  · simp [hl, Property.items, Property.type, Property.properties]
  · by_cases hm : g.isMap = true
    · simp [hl, hm, Property.items, Property.type, Property.properties]
    · by_cases hk : g.kind = Protoreflect.MessageKind ∧ g.message.isSome = true
      · simp [hl, hm, hk, Property.items, Property.type, Property.properties]
      · have hne := protoTypeToJSONType_ne_array g.kind
        simp only [hl, hm, hk, if_false, Property.items, Property.type, Property.properties]
        simp [hne]

theorem GoMap.mem_assign {V : Type} (m : GoMap V) (k : String) (v : V) (e : String × V)
    (h : e ∈ GoMap.assign m k v) : e ∈ m ∨ e = (k, v) := by
  induction m with
  | nil => simpa [GoMap.assign] using h
  | cons hd tl ih =>
    obtain ⟨k', v'⟩ := hd
    unfold GoMap.assign at h
    split at h
    · rcases List.mem_cons.1 h with h | h
      · exact Or.inr h
      · exact Or.inl (List.mem_cons_of_mem _ h)
    · rcases List.mem_cons.1 h with h | h
      · exact Or.inl (h ▸ List.mem_cons_self _ _)
      · rcases ih h with h | h
        · exact Or.inl (List.mem_cons_of_mem _ h)
        · exact Or.inr h

theorem mem_nestedProperties (fields : List Protogen.Field) (properties : List (String × Property))
    (e : String × Property) (h : e ∈ nestedProperties fields properties) :
    e ∈ properties ∨ ∃ g ∈ fields, e = (g.jsonName, messageFieldToProperty g) := by
  induction fields generalizing properties with
  | nil => exact Or.inl (by simpa [nestedProperties] using h)
  | cons f fs ih =>
    rw [nestedProperties] at h
    rcases ih _ h with h | ⟨g, hg, he⟩
    · rcases GoMap.mem_assign _ _ _ _ h with h | h
      · exact Or.inl h
      · exact Or.inr ⟨f, List.mem_cons_self _ _, h⟩
    · exact Or.inr ⟨g, List.mem_cons_of_mem _ hg, he⟩

theorem mem_nodesOfMap (l : List (String × Property)) (p : Property) :
    p ∈ Property.nodesOfMap l ↔ ∃ e ∈ l, p ∈ e.2.nodes := by
  induction l with
  | nil => simp [Property.nodesOfMap]
  | cons hd tl ih =>
    obtain ⟨k, q⟩ := hd
    simp [Property.nodesOfMap, ih]

theorem mem_nodes (q p : Property) :
    p ∈ q.nodes ↔ p = q ∨ ∃ m, q.properties = some m ∧ p ∈ Property.nodesOfMap m := by
  cases q with
  | mk t d e i ps =>
    cases ps <;> simp [Property.nodes, Property.nodesOfOption, Property.properties]

theorem mem_descendants_self (f : Protogen.Field) : f ∈ f.descendants := by
  cases f with
  | mk j k c m l e msg =>
    unfold Field.descendants
    exact List.mem_cons_self _ _

theorem properties_eq_some (f : Protogen.Field) (mp : List (String × Property))
    (h : (messageFieldToProperty f).properties = some mp) :
    mp = nestedProperties ((f.message.map Message.fields).getD []) [] := by
  rw [messageFieldToProperty_eq] at h
  split_ifs at h <;> simp [Property.properties] at h <;> exact h.symm

theorem mem_descendantsOfList (fs : List Protogen.Field) (g : Protogen.Field) :
    g ∈ Field.descendantsOfList fs ↔ ∃ f ∈ fs, g ∈ f.descendants := by
  induction fs with
  | nil => simp [Field.descendantsOfList]
  | cons hd tl ih => simp [Field.descendantsOfList, ih]

theorem mem_descendants_of_message (f : Protogen.Field) (fields : List Protogen.Field)
    (h : f.message = some (.mk fields)) (g : Protogen.Field) (hg : g ∈ Field.descendantsOfList fields) :
    g ∈ f.descendants := by
  cases f with
  | mk j k c m l e msg =>
    have : msg = some (.mk fields) := h
    subst this
    simp [Field.descendants, hg]

mutual
theorem nodes_source (f : Protogen.Field) :
    ∀ p ∈ (messageFieldToProperty f).nodes, ∃ g ∈ f.descendants, p = messageFieldToProperty g := by
  match f with
  | .mk j k c m l e msg =>
    intro p hp
    rcases (mem_nodes _ _).1 hp with rfl | ⟨mp, hmp, hp⟩
    · exact ⟨_, mem_descendants_self _, rfl⟩
    · have hmp' := properties_eq_some _ _ hmp
      match msg with
      | none =>
        simp only [Field.message, Option.map, Option.getD, nestedProperties] at hmp'
        subst hmp'
        simp [Property.nodesOfMap] at hp
      | some (.mk fields) =>
        simp only [Field.message, Option.map, Option.getD, Message.fields] at hmp'
        subst hmp'
        obtain ⟨e, he, hpe⟩ := (mem_nodesOfMap _ _).1 hp
        rcases mem_nestedProperties _ _ _ he with h | ⟨g, hg, rfl⟩
        · simp at h
        · obtain ⟨g', hg', hp'⟩ := nodes_source_list fields g hg p hpe
          exact ⟨g', mem_descendants_of_message (.mk j k c m l _ (some (.mk fields))) fields rfl g'
            ((mem_descendantsOfList _ _).2 ⟨g, hg, hg'⟩), hp'⟩
theorem nodes_source_list (fs : List Protogen.Field) :
    ∀ g ∈ fs, ∀ p ∈ (messageFieldToProperty g).nodes,
      ∃ g' ∈ g.descendants, p = messageFieldToProperty g' := by
  match fs with
  | [] => intro g hg; simp at hg
  | f :: rest =>
    intro g hg
    rcases List.mem_cons.1 hg with rfl | hg
    · exact nodes_source g
    · exact nodes_source_list rest g hg
end


theorem GoMap.mem_keys_assign {V : Type} (m : GoMap V) (k : String) (v : V) (k' : String) :
    k' ∈ GoMap.keys (GoMap.assign m k v) ↔ k' ∈ GoMap.keys m ∨ k' = k := by
  induction m with
  | nil => simp [GoMap.assign, GoMap.keys]
  | cons hd tl ih =>
    obtain ⟨k0, v0⟩ := hd
    unfold GoMap.assign
    split
    · rename_i h
      subst h
      simp only [GoMap.keys, List.map_cons, List.mem_cons]
      tauto
    · simp only [GoMap.keys, List.map_cons, List.mem_cons] at ih ⊢
      rw [ih]
      tauto

/-- The assignment `m[k] = v` keeps the keys of a map pairwise distinct. -/
theorem GoMap.nodup_keys_assign {V : Type} (m : GoMap V) (k : String) (v : V)
    (h : (GoMap.keys m).Nodup) : (GoMap.keys (GoMap.assign m k v)).Nodup := by
  induction m with
  | nil => simp [GoMap.assign, GoMap.keys]
  | cons hd tl ih =>
    obtain ⟨k0, v0⟩ := hd
    have h' : k0 ∉ GoMap.keys tl ∧ (GoMap.keys tl).Nodup := by
      simpa [GoMap.keys] using h
    unfold GoMap.assign
    split
    · rename_i hk
      subst hk
      simpa [GoMap.keys] using h
    · rename_i hk
      have hmem : k0 ∉ GoMap.keys (GoMap.assign tl k v) := by
        intro hc
        rcases (GoMap.mem_keys_assign tl k v k0).1 hc with hc | hc
        · exact h'.1 hc
        · exact hk hc
      have := ih h'.2
      simp only [GoMap.keys, List.map_cons, List.nodup_cons] at hmem this ⊢
      exact ⟨hmem, this⟩

/-- The loop of `generateInputSchema`, from any schema whose map is allocated. -/
theorem generateInputSchema_loop (fields : List Protogen.Field) (schema : InputSchema)
    (props : List (String × Property)) (hp : schema.properties = some props) :
    ∃ props',
      (fields.foldl
        (fun (schema : InputSchema) (field : Protogen.Field) =>
          let prop := messageFieldToProperty field
          let schema : InputSchema :=
            { schema with
              properties := some (GoMap.assign (schema.properties.getD []) field.jsonName prop) }
          if field.cardinality = Protoreflect.Required then
            { schema with required := schema.required ++ [field.jsonName] }
          else schema)
        schema) =
        { type := schema.type, properties := some props',
          required := schema.required ++
            (fields.filter (fun f => decide (f.cardinality = Protoreflect.Required))).map
              Field.jsonName } ∧
      (∀ k, k ∈ GoMap.keys props' ↔ k ∈ GoMap.keys props ∨ k ∈ fields.map Field.jsonName) ∧
      (fields = [] → props' = props) := by
  induction fields generalizing schema props with
  | nil =>
    refine ⟨props, ?_, ?_, ?_⟩
    · cases schema
      simp at hp
      simp [hp]
    · simp
    · simp
  | cons f fs ih =>
    simp only [List.foldl_cons]
    by_cases hr : f.cardinality = Protoreflect.Required
    · obtain ⟨props', h1, h2, _⟩ := ih
        { type := schema.type,
          properties := some (GoMap.assign (schema.properties.getD []) f.jsonName
            (messageFieldToProperty f)),
          required := schema.required ++ [f.jsonName] }
        (GoMap.assign props f.jsonName (messageFieldToProperty f)) (by simp [hp])
      refine ⟨props', ?_, ?_, ?_⟩
      · simp only [hr, if_true]
        rw [h1]
        simp [hr]
      · intro k
        rw [h2, GoMap.mem_keys_assign]
        simp only [List.map_cons, List.mem_cons]
        tauto
      · simp
    · obtain ⟨props', h1, h2, _⟩ := ih
        { type := schema.type,
          properties := some (GoMap.assign (schema.properties.getD []) f.jsonName
            (messageFieldToProperty f)),
          required := schema.required }
        (GoMap.assign props f.jsonName (messageFieldToProperty f)) (by simp [hp])
      refine ⟨props', ?_, ?_, ?_⟩
      · simp only [hr, if_false]
        rw [h1]
        simp [hr]
      · intro k
        rw [h2, GoMap.mem_keys_assign]
        simp only [List.map_cons, List.mem_cons]
        tauto
      · simp

/-! ## The schema converter: the claims -/

/-- C4. Every node of the tree `messageFieldToProperty` builds, the root and the nodes
nested under `Properties` at any depth, is the property of a field `g` of the descriptor
tree, and for it: `Items` is set iff `Type = "array"`; `Properties` is set iff
`Type = "object"` and `g` is a singular, non-map field of message kind. A map field gives
`Type = "object"` with neither `Properties` nor `Items`. The descriptor tree is one that
`protogen` builds: a singular, non-map field of message kind has its `Message`. -/
theorem messageFieldToProperty_invariant (f : Protogen.Field)
    (hwf : ∀ g ∈ f.descendants, g.isList = false → g.isMap = false →
      g.kind = Protoreflect.MessageKind → g.message.isSome = true) :
    (∀ p ∈ (messageFieldToProperty f).nodes,
      ∃ g ∈ f.descendants, p = messageFieldToProperty g ∧
        (p.items.isSome = true ↔ p.type = "array") ∧
        (p.properties.isSome = true ↔
          (p.type = "object" ∧ g.isList = false ∧ g.isMap = false ∧
            g.kind = Protoreflect.MessageKind))) ∧
    (f.isMap = true →
      (messageFieldToProperty f).type = "object" ∧
        (messageFieldToProperty f).properties = none ∧
        (messageFieldToProperty f).items = none) := by
  refine ⟨?_, ?_⟩
  · intro p hp
    obtain ⟨g, hg, rfl⟩ := nodes_source f p hp
    have hnode := messageFieldToProperty_node g
    refine ⟨g, hg, rfl, hnode.1, ?_⟩
    rw [hnode.2]
    constructor
    · rintro ⟨h1, h2, h3, h4, _⟩
      exact ⟨h1, h2, h3, h4⟩
    · rintro ⟨h1, h2, h3, h4⟩
      exact ⟨h1, h2, h3, h4, hwf g hg h2 h3 h4⟩
  · intro hm
    have hl : f.isList = false := by simp [Field.isList, hm]
    rw [messageFieldToProperty_eq]
    simp [hl, hm, Property.type, Property.properties, Property.items]

/-- C4 at the field `order`, whose message `Order` has a scalar field, a repeated field and
the nested message `Buyer`: every singular field of message kind in it has its message,
and the invariant holds at each node of its property tree. -/
theorem messageFieldToProperty_invariant_witness :
    (∀ g ∈ orderField.descendants, g.isList = false → g.isMap = false →
      g.kind = Protoreflect.MessageKind → g.message.isSome = true) ∧
    ((∀ p ∈ (messageFieldToProperty orderField).nodes,
      ∃ g ∈ orderField.descendants, p = messageFieldToProperty g ∧
        (p.items.isSome = true ↔ p.type = "array") ∧
        (p.properties.isSome = true ↔
          (p.type = "object" ∧ g.isList = false ∧ g.isMap = false ∧
            g.kind = Protoreflect.MessageKind))) ∧
    (orderField.isMap = true →
      (messageFieldToProperty orderField).type = "object" ∧
        (messageFieldToProperty orderField).properties = none ∧
        (messageFieldToProperty orderField).items = none)) :=
  ⟨by decide, messageFieldToProperty_invariant orderField (by decide)⟩

/-- On a descriptor tree `generateInputSchema` gives a schema of type `"object"` whose
`Properties` map is allocated and has exactly the fields' JSON names as keys, and whose
`Required` list is the JSON names of the fields of cardinality `Required`, in declaration
order; a message with no field gives an empty map and an empty list. -/
theorem generateInputSchema_spec (message : Protogen.Message) :
    (generateInputSchema message).type = "object" ∧
    (∃ props, (generateInputSchema message).properties = some props ∧
      ∀ k, k ∈ GoMap.keys props ↔ k ∈ message.fields.map Field.jsonName) ∧
    (generateInputSchema message).required =
      (message.fields.filter (fun f => decide (f.cardinality = Protoreflect.Required))).map
        Field.jsonName ∧
    (message.fields = [] →
      (generateInputSchema message).properties = some [] ∧
        (generateInputSchema message).required = []) := by
  obtain ⟨props', h1, h2, h3⟩ := generateInputSchema_loop message.fields
    { type := "object", properties := some [], required := [] } [] rfl
  unfold generateInputSchema
  simp only at h1 ⊢
  rw [h1]
  refine ⟨rfl, ⟨props', rfl, ?_⟩, by simp, ?_⟩
  · intro k
    rw [h2]
    simp [GoMap.keys]
  · intro h0
    simp [h3 h0, h0]

/-- C6. A repeated field gives `Type = "array"`, the cleaned documentation as description,
`Items` of the mapped kind with the same description and no `Properties`, and neither
`Enum` nor `Properties` of its own, whatever the element kind. -/
theorem messageFieldToProperty_repeated (f : Protogen.Field) (h : f.isList = true) :
    messageFieldToProperty f =
      .mk "array" (extractComment f.leading) none
        (some (.mk (protoTypeToJSONType f.kind) none (extractComment f.leading))) none := by
  rw [messageFieldToProperty_eq, if_pos h]

/-- C6 at a repeated `int32` field without documentation: the property that serialises to
`{"type":"array","items":{"type":"integer"}}`. -/
theorem messageFieldToProperty_repeated_witness :
    messageFieldToProperty
        (.mk "ids" Protoreflect.Int32Kind Protoreflect.Repeated false "" none none) =
      .mk "array" "" none (some (.mk "integer" none "")) none :=
  (messageFieldToProperty_repeated
    (.mk "ids" Protoreflect.Int32Kind Protoreflect.Repeated false "" none none)
    (by decide)).trans (by rfl)

/-- C7. A singular, non-map field of enum kind whose enum definition is present gives
`Type = "string"` and `Enum` equal to the member names in declaration order, with `Items`
and `Properties` unset. -/
theorem messageFieldToProperty_enum (f : Protogen.Field) (e : Protogen.Enum)
    (hl : f.isList = false) (hm : f.isMap = false) (hk : f.kind = Protoreflect.EnumKind)
    (he : f.enum = some e) :
    (messageFieldToProperty f).type = "string" ∧
      (messageFieldToProperty f).enum = some (e.values.map EnumValue.name) ∧
      (messageFieldToProperty f).items = none ∧
      (messageFieldToProperty f).properties = none := by
  have hne : ¬ (Protoreflect.EnumKind = Protoreflect.MessageKind) := by decide
  have hty : protoTypeToJSONType Protoreflect.EnumKind = "string" := by decide
  rw [messageFieldToProperty_eq]
  simp [hl, hm, hk, he, hne, hty, Property.type, Property.enum, Property.items,
    Property.properties]

/-- C7 at a field of an enum with the members `RED`, `GREEN`, `BLUE`. -/
theorem messageFieldToProperty_enum_witness :
    (messageFieldToProperty
        (.mk "colour" Protoreflect.EnumKind Protoreflect.Optional false "" 
          (some ⟨[⟨"RED"⟩, ⟨"GREEN"⟩, ⟨"BLUE"⟩]⟩) none)).type = "string" ∧
    (messageFieldToProperty
        (.mk "colour" Protoreflect.EnumKind Protoreflect.Optional false ""
          (some ⟨[⟨"RED"⟩, ⟨"GREEN"⟩, ⟨"BLUE"⟩]⟩) none)).enum =
      some ["RED", "GREEN", "BLUE"] ∧
    (messageFieldToProperty
        (.mk "colour" Protoreflect.EnumKind Protoreflect.Optional false ""
          (some ⟨[⟨"RED"⟩, ⟨"GREEN"⟩, ⟨"BLUE"⟩]⟩) none)).items = none ∧
    (messageFieldToProperty
        (.mk "colour" Protoreflect.EnumKind Protoreflect.Optional false ""
          (some ⟨[⟨"RED"⟩, ⟨"GREEN"⟩, ⟨"BLUE"⟩]⟩) none)).properties = none :=
  messageFieldToProperty_enum
    (.mk "colour" Protoreflect.EnumKind Protoreflect.Optional false ""
      (some ⟨[⟨"RED"⟩, ⟨"GREEN"⟩, ⟨"BLUE"⟩]⟩) none)
    ⟨[⟨"RED"⟩, ⟨"GREEN"⟩, ⟨"BLUE"⟩]⟩ (by decide) (by decide) (by decide) rfl

/-! ## The identifier normaliser: the loop -/

theorem toSnakeCaseStep_at (pre : List Char) (r : Char) (rest result : List Char) :
    toSnakeCaseStep (pre ++ r :: rest) result pre.length =
      result ++ (if underscoreBefore pre.getLast? r rest then ['_'] else []) ++ [r] := by
  have hr : (pre ++ r :: rest).getD pre.length (Char.ofNat 0) = r := by
    rw [List.getD_append_right _ _ _ _ (le_refl _)]
    simp
  unfold toSnakeCaseStep
  simp only [hr, Char.goUpper_iff, Char.goLower_iff]
  rcases List.eq_nil_or_concat pre with rfl | ⟨pre0, p, rfl⟩
  · simp [underscoreBefore]
  · have hs : pre0.concat p ++ r :: rest = pre0 ++ p :: r :: rest := by simp
    have hl0 : (pre0.concat p).length = pre0.length + 1 := by simp
    have hp : (pre0 ++ p :: r :: rest).getD (pre0.length + 1 - 1) (Char.ofNat 0) = p := by
      rw [Nat.add_sub_cancel, List.getD_append_right _ _ _ _ (le_refl _)]
      simp
    have hn : (pre0 ++ p :: r :: rest).getD (pre0.length + 1 + 1) (Char.ofNat 0) =
        rest.headD (Char.ofNat 0) := by
      rw [List.getD_append_right _ _ _ _ (by omega)]
      have : pre0.length + 1 + 1 - pre0.length = 2 := by omega
      rw [this]
      cases rest <;> simp
    have hlen : pre0.length + 1 < (pre0 ++ p :: r :: rest).length - 1 ↔ rest ≠ [] := by
      cases rest <;> simp
    have hlast : (pre0.concat p).getLast? = some p := by simp
    simp only [hs, hl0, hp, hn, hlen, hlast]
    cases rest with
    | nil =>
      by_cases hu : r.isUpper = true <;> by_cases hl : p.isLower = true <;>
        simp [underscoreBefore, hu, hl]
    | cons n rest' =>
      by_cases hu : r.isUpper = true <;> by_cases hl : p.isLower = true <;>
        by_cases hnl : n.isLower = true <;> simp [underscoreBefore, hu, hl, hnl]

theorem toSnakeCase_loop_from (rest pre acc : List Char) :
    (List.range' pre.length rest.length).foldl (toSnakeCaseStep (pre ++ rest)) acc =
      acc ++ snakeRunes pre.getLast? rest := by
  induction rest generalizing pre acc with
  | nil => simp [snakeRunes]
  | cons r rest ih =>
    have hs : pre ++ r :: rest = (pre ++ [r]) ++ rest := by simp
    simp only [List.length_cons, List.range'_succ, List.foldl_cons]
    rw [toSnakeCaseStep_at, hs]
    have := ih (pre ++ [r]) (acc ++ (if underscoreBefore pre.getLast? r rest then ['_'] else []) ++ [r])
    simp only [List.length_append, List.length_singleton] at this
    rw [this]
    simp [snakeRunes]

theorem toSnakeCase_loop (s : List Char) :
    (List.range s.length).foldl (toSnakeCaseStep s) [] = snakeRunes none s := by
  have := toSnakeCase_loop_from s [] []
  simpa [List.range_eq_range'] using this

theorem toSnakeCase_eq (tbl : Char → Char) (s : String) :
    toSnakeCase tbl s = ⟨(snakeRunes none s.data).map (Unicode.ToLower tbl)⟩ := by
  unfold toSnakeCase
  split
  · rename_i h
    have : s.data = [] := List.length_eq_zero.1 h
    cases s
    simp_all [snakeRunes]
  · simp only [toSnakeCase_loop, Strings.ToLower]

end Generator

/-! ## The identifier normaliser: the claims -/

theorem Char.isUpper_false_of_isLower (c : Char) (h : c.isLower = true) : c.isUpper = false := by
  cases hc : c.isUpper with
  | false => rfl
  | true =>
    have h1 := (Char.isUpper_iff_toNat c).1 hc
    have h2 := (Char.isLower_iff_toNat c).1 h
    omega

theorem Char.isLower_false_of_isUpper (c : Char) (h : c.isUpper = true) : c.isLower = false := by
  cases hc : c.isLower with
  | false => rfl
  | true => simp [Char.isUpper_false_of_isLower c hc] at h


namespace Unicode

theorem ToLower_isUpper_false (tbl : Char → Char)
    (htbl : ∀ r, 0x7F < r.toNat → (tbl r).isUpper = false) (r : Char) :
    (ToLower tbl r).isUpper = false := by
  by_cases ha : r.toNat ≤ 0x7F
  · by_cases hu : r.isUpper = true
    · rw [ToLower_of_isUpper tbl r hu]
      have h' := (Char.isUpper_iff_toNat r).1 hu
      have hn : (Char.ofNat (r.toNat + 32)).toNat = r.toNat + 32 :=
        Char.toNat_ofNat_of_lt _ (by omega)
      cases hc : (Char.ofNat (r.toNat + 32)).isUpper with
      | false => rfl
      | true =>
        have := (Char.isUpper_iff_toNat _).1 hc
        omega
    · have hu' : r.isUpper = false := by simpa using hu
      rw [ToLower_of_ascii_not_isUpper tbl r ha hu']
      exact hu'
  · have : ToLower tbl r = tbl r := by
      unfold ToLower
      rw [if_neg ha]
    rw [this]
    exact htbl r (by omega)

/-- An idempotent `unicode.ToLower` returns no upper-case ASCII letter: applying it again
would change one. -/
theorem ToLower_isUpper_false_of_idem (tbl : Char → Char)
    (hidem : ∀ r, ToLower tbl (ToLower tbl r) = ToLower tbl r) (r : Char) :
    (ToLower tbl r).isUpper = false := by
  cases hc : (ToLower tbl r).isUpper with
  | false => rfl
  | true =>
    have h1 := ToLower_of_isUpper tbl _ hc
    rw [hidem r] at h1
    have h' := (Char.isUpper_iff_toNat _).1 hc
    have hn : (Char.ofNat ((ToLower tbl r).toNat + 32)).toNat = (ToLower tbl r).toNat + 32 :=
      Char.toNat_ofNat_of_lt _ (by omega)
    rw [← h1] at hn
    omega

/-- With the identity for case table (no rune above ASCII has a lower-case form)
`unicode.ToLower` is idempotent. -/
theorem ToLower_id_idem (r : Char) : ToLower id (ToLower id r) = ToLower id r := by
  by_cases ha : r.toNat ≤ 0x7F
  · have hu := ToLower_isUpper_false id (fun r hr => by
      cases hc : (id r).isUpper with
      | false => rfl
      | true =>
        have := (Char.isUpper_iff_toNat _).1 hc
        simp only [id] at this
        omega) r
    by_cases hr : r.isUpper = true
    · have h' := (Char.isUpper_iff_toNat r).1 hr
      have hn : (Char.ofNat (r.toNat + 32)).toNat = r.toNat + 32 :=
        Char.toNat_ofNat_of_lt _ (by omega)
      have hlow : (ToLower id r).toNat ≤ 0x7F := by
        rw [ToLower_of_isUpper id r hr, hn]
        omega
      exact ToLower_of_ascii_not_isUpper id _ hlow hu
    · have hr' : r.isUpper = false := by simpa using hr
      rw [ToLower_of_ascii_not_isUpper id r ha hr']
      exact ToLower_of_ascii_not_isUpper id r ha hr'
  · have : ToLower id r = r := by
      unfold ToLower
      rw [if_neg ha]
      rfl
    rw [this, this]

end Unicode

namespace Generator

theorem underscoreBefore_of_not_isUpper (prev : Option Char) (r : Char) (rest : List Char)
    (h : r.isUpper = false) : underscoreBefore prev r rest = false := by
  cases prev <;> simp [underscoreBefore, h]

theorem snakeRunes_of_no_upper (l : List Char) (prev : Option Char)
    (h : ∀ c ∈ l, c.isUpper = false) : snakeRunes prev l = l := by
  induction l generalizing prev with
  | nil => rfl
  | cons r rest ih =>
    have hr : r.isUpper = false := h r (List.mem_cons_self _ _)
    rw [snakeRunes, underscoreBefore_of_not_isUpper prev r rest hr,
      ih (some r) (fun c hc => h c (List.mem_cons_of_mem _ hc))]
    rfl

/-- A rune the loop of `toSnakeCase` writes is a rune of the input or an underscore. -/
theorem mem_snakeRunes (prev : Option Char) (l : List Char) (c : Char)
    (h : c ∈ snakeRunes prev l) : c ∈ l ∨ c = '_' := by
  induction l generalizing prev with
  | nil => simp [snakeRunes] at h
  | cons r rest ih =>
    rw [snakeRunes] at h
    rcases List.mem_append.1 h with h | h
    · split at h
      · exact Or.inr (by simpa using h)
      · simp at h
    · rcases List.mem_cons.1 h with rfl | h
      · exact Or.inl (List.mem_cons_self _ _)
      · rcases ih (some r) h with h | h
        · exact Or.inl (List.mem_cons_of_mem _ h)
        · exact Or.inr h

/-- The loop of `toSnakeCase` writes every rune of the input. -/
theorem mem_snakeRunes_of_mem (prev : Option Char) (l : List Char) (r : Char) (h : r ∈ l) :
    r ∈ snakeRunes prev l := by
  induction l generalizing prev with
  | nil => simp at h
  | cons a rest ih =>
    rw [snakeRunes]
    apply List.mem_append_right
    rcases List.mem_cons.1 h with rfl | h
    · exact List.mem_cons_self _ _
    · exact List.mem_cons_of_mem _ (ih (some a) h)

/-- C10 as stated fails: U+03D2 (Greek upsilon with hook symbol) is an upper-case letter
that has no lower-case form, so `unicode.ToLower` returns it as it is, and `toSnakeCase`
returns the string that holds it unchanged, for the identity and for every other case
table that leaves the rune alone. -/
theorem toSnakeCase_isUpper_false_counterexample :
    Unicode.upperWithoutLower 'ϒ' = true ∧ 'ϒ'.toNat = 0x3D2 ∧
    toSnakeCase id "ϒ" = "ϒ" ∧
    ∀ caseTable : Char → Char, caseTable 'ϒ' = 'ϒ' → toSnakeCase caseTable "ϒ" = "ϒ" := by
  refine ⟨by decide, by decide, by decide, fun caseTable h => ?_⟩
  rw [toSnakeCase_eq]
  have h1 : snakeRunes none "ϒ".data = ['ϒ'] := by decide
  have h2 : Unicode.ToLower caseTable 'ϒ' = 'ϒ' := by
    unfold Unicode.ToLower
    rw [if_neg (by decide), h]
  rw [h1, List.map_singleton, h2]

/-- C10, amended. The output of `toSnakeCase` contains no upper-case ASCII letter
`'A'..'Z'` (the test of upper case the function itself makes), for every input, given that
the Unicode case tables send no rune above ASCII to an ASCII capital. Every rune of the
output is the `unicode.ToLower` image of a rune of the input or of an underscore, and the
image of every rune of the input is in the output: a letter that `unicode.ToLower` leaves
as it is stays in the output, upper case or not. -/
theorem toSnakeCase_isUpper_false (caseTable : Char → Char)
    (htbl : ∀ r, 0x7F < r.toNat → (caseTable r).isUpper = false) (x : String) :
    (∀ c ∈ (toSnakeCase caseTable x).data, c.isUpper = false) ∧
    (∀ c ∈ (toSnakeCase caseTable x).data,
      ∃ r, (r ∈ x.data ∨ r = '_') ∧ c = Unicode.ToLower caseTable r) ∧
    (∀ r ∈ x.data, Unicode.ToLower caseTable r ∈ (toSnakeCase caseTable x).data) := by
  rw [toSnakeCase_eq]
  refine ⟨?_, ?_, ?_⟩
  · intro c hc
    obtain ⟨r, _, rfl⟩ := List.mem_map.1 hc
    exact Unicode.ToLower_isUpper_false caseTable htbl r
  · intro c hc
    obtain ⟨r, hr, rfl⟩ := List.mem_map.1 hc
    exact ⟨r, mem_snakeRunes none x.data r hr, rfl⟩
  · intro r hr
    exact List.mem_map.2 ⟨r, mem_snakeRunes_of_mem none x.data r hr, rfl⟩

/-- C10, amended, at `GetNewsMLDocument`, with the identity for case table: no rune of
`get_news_ml_document` is an upper-case ASCII letter, and the image `g` of the rune `G` is
in it. -/
theorem toSnakeCase_isUpper_false_witness :
    (toSnakeCase id "GetNewsMLDocument").data.all (fun c => !c.isUpper) = true ∧
      toSnakeCase id "GetNewsMLDocument" = "get_news_ml_document" ∧
      Unicode.ToLower id 'G' ∈ (toSnakeCase id "GetNewsMLDocument").data :=
  ⟨List.all_eq_true.2 (fun c hc => by
      rw [(toSnakeCase_isUpper_false id (fun r hr => by
        cases hu : (id r).isUpper with
        | false => rfl
        | true =>
          have := (Char.isUpper_iff_toNat _).1 hu
          simp only [id] at this
          omega) "GetNewsMLDocument").1 c hc]
      rfl),
   by decide,
   (toSnakeCase_isUpper_false id (fun r hr => by
        cases hu : (id r).isUpper with
        | false => rfl
        | true =>
          have := (Char.isUpper_iff_toNat _).1 hu
          simp only [id] at this
          omega) "GetNewsMLDocument").2.2 'G' (by decide)⟩

/-- C9. `toSnakeCase` is idempotent on its own output, for every input: the output holds
no ASCII capital, so the second pass writes no underscore and lowers runes that are
already lowered; the assumption is that `unicode.ToLower` itself is idempotent. -/
theorem toSnakeCase_idempotent (caseTable : Char → Char)
    (hidem : ∀ r, Unicode.ToLower caseTable (Unicode.ToLower caseTable r) =
      Unicode.ToLower caseTable r) (x : String) :
    toSnakeCase caseTable (toSnakeCase caseTable x) = toSnakeCase caseTable x := by
  rw [toSnakeCase_eq caseTable (toSnakeCase caseTable x), toSnakeCase_eq caseTable x]
  have hno : ∀ c ∈ (snakeRunes none x.data).map (Unicode.ToLower caseTable),
      c.isUpper = false := by
    intro c hc
    obtain ⟨r, _, rfl⟩ := List.mem_map.1 hc
    exact Unicode.ToLower_isUpper_false_of_idem caseTable hidem r
  simp only [snakeRunes_of_no_upper _ none hno, List.map_map]
  congr 1
  apply List.map_congr_left
  intro r _
  exact hidem r

/-- C9 at `GetNewsMLDocument`, with the identity for case table. -/
theorem toSnakeCase_idempotent_witness :
    toSnakeCase id (toSnakeCase id "GetNewsMLDocument") = toSnakeCase id "GetNewsMLDocument" ∧
      toSnakeCase id "GetNewsMLDocument" = "get_news_ml_document" :=
  ⟨toSnakeCase_idempotent id Unicode.ToLower_id_idem "GetNewsMLDocument", by decide⟩

end Generator

namespace Generator

/-- The words after the first, each behind its underscore. -/
theorem intercalate_underscore (x : List Char) (xs : List (List Char)) :
    List.intercalate ['_'] (x :: xs) = x ++ (xs.map (fun w => '_' :: w)).flatten := by
  induction xs generalizing x with
  | nil => simp [List.intercalate]
  | cons y ys ih =>
    have := ih y
    simp only [List.intercalate, List.intersperse_cons_cons, List.flatten_cons] at this ⊢
    rw [this]
    simp

theorem getLast?_or_of_cons (d : Char) (t : List Char) (a b : Option Char) :
    (d :: t).getLast?.or a = (d :: t).getLast?.or b := by
  rw [List.getLast?_eq_getLast _ (List.cons_ne_nil _ _)]
  rfl

theorem snakeRunes_nonupper_run (t : List Char) (prev : Option Char) (rest : List Char)
    (h : ∀ c ∈ t, c.isUpper = false) :
    snakeRunes prev (t ++ rest) = t ++ snakeRunes (t.getLast?.or prev) rest := by
  induction t generalizing prev with
  | nil => simp
  | cons c t ih =>
    have hc : c.isUpper = false := h c (List.mem_cons_self _ _)
    rw [List.cons_append, snakeRunes, underscoreBefore_of_not_isUpper prev c _ hc,
      ih (some c) (fun d hd => h d (List.mem_cons_of_mem _ hd))]
    cases t with
    | nil => simp
    | cons d t' => simp [getLast?_or_of_cons d t' (some c) prev]

theorem snakeRunes_nonlower_run (t : List Char) (prev : Option Char) (rest : List Char)
    (h : ∀ c ∈ t, c.isLower = false) (hp : ∀ p, prev = some p → p.isLower = false)
    (hr : ∀ n, rest.head? = some n → n.isLower = false) :
    snakeRunes prev (t ++ rest) = t ++ snakeRunes (t.getLast?.or prev) rest := by
  induction t generalizing prev with
  | nil => simp
  | cons c t ih =>
    have hu : underscoreBefore prev c (t ++ rest) = false := by
      cases prev with
      | none => rfl
      | some p =>
        have hpl := hp p rfl
        cases t with
        | nil =>
          cases rest with
          | nil => simp [underscoreBefore, hpl]
          | cons n rest' => simp [underscoreBefore, hpl, hr n rfl]
        | cons d t' =>
          simp [underscoreBefore, hpl, h d (by simp)]
    rw [List.cons_append, snakeRunes, hu,
      ih (some c) (fun d hd => h d (List.mem_cons_of_mem _ hd))
        (fun p hp' => by
          cases hp'
          exact h c (List.mem_cons_self _ _))]
    cases t with
    | nil => simp
    | cons d t' => simp [getLast?_or_of_cons d t' (some c) prev]

end Generator

namespace Generator

theorem isWord_cases (w : List Char) (h : isWord w = true) :
    ∃ u tail, w = u :: tail ∧ u.isUpper = true ∧
      ((isCapitalised w = true ∧ (∀ c ∈ tail, c.isLower = true) ∧ tail ≠ []) ∨
        (isAcronym w = true ∧ ∀ c ∈ tail, c.isUpper = true)) := by
  unfold isWord at h
  rcases Bool.or_eq_true_iff.1 h with hc | ha
  · match w, hc with
    | u :: l :: ls, hc =>
      have hc' := hc
      simp only [isCapitalised, Bool.and_eq_true, List.all_eq_true] at hc'
      exact ⟨u, l :: ls, rfl, hc'.1, Or.inl ⟨hc, hc'.2, by simp⟩⟩
  · match w, ha with
    | u :: us, ha =>
      have ha' := ha
      simp only [isAcronym, List.all_eq_true] at ha'
      exact ⟨u, us, rfl, ha' u (List.mem_cons_self _ _),
        Or.inr ⟨ha, fun c hc => ha' c (List.mem_cons_of_mem _ hc)⟩⟩

theorem isAcronym_false_of_isCapitalised (w : List Char) (h : isCapitalised w = true) :
    isAcronym w = false := by
  match w, h with
  | u :: l :: ls, h =>
    simp only [isCapitalised, Bool.and_eq_true, List.all_eq_true] at h
    have hl : l.isLower = true := h.2 l (List.mem_cons_self _ _)
    have := Char.isUpper_false_of_isLower l hl
    simp [isAcronym, this]

/-- The runes of a word after its first, read by the loop: no underscore is written, and
the words that follow each get one. -/
theorem snakeRunes_word_tail (u : Char) (tail : List Char) (ws : List (List Char))
    (hw : isWord (u :: tail) = true) (hws : ∀ w ∈ ws, isWord w = true)
    (hadj : ∀ w, ws.head? = some w → ¬ (isAcronym (u :: tail) = true ∧ isAcronym w = true))
    (hM : ∀ p, (p.isLower = true ∨ ∀ w, ws.head? = some w → isAcronym w = false) →
      snakeRunes (some p) ws.flatten = (ws.map (fun w => '_' :: w)).flatten) :
    snakeRunes (some u) (tail ++ ws.flatten) =
      tail ++ (ws.map (fun w => '_' :: w)).flatten := by
  obtain ⟨u', tail', he, hu, hcase⟩ := isWord_cases _ hw
  cases he
  rcases hcase with ⟨_, hlow, hne⟩ | ⟨hacr, hup⟩
  · rw [snakeRunes_nonupper_run tail (some u) _
      (fun c hc => Char.isUpper_false_of_isLower c (hlow c hc))]
    have hlast : tail.getLast? = some (tail.getLast hne) := List.getLast?_eq_getLast _ hne
    rw [hlast]
    simp only [Option.or_some]
    rw [hM _ (Or.inl (hlow _ (List.getLast_mem hne)))]
  · have hhead : ∀ n, ws.flatten.head? = some n → n.isLower = false := by
      intro n hn
      cases ws with
      | nil => simp at hn
      | cons w' ws' =>
        obtain ⟨u2, t2, he2, hu2, _⟩ := isWord_cases w' (hws w' (List.mem_cons_self _ _))
        subst he2
        simp at hn
        subst hn
        exact Char.isLower_false_of_isUpper _ hu2
    rw [snakeRunes_nonlower_run tail (some u) _
      (fun c hc => Char.isLower_false_of_isUpper c (hup c hc))
      (fun p hp => by
        cases hp
        exact Char.isLower_false_of_isUpper _ hu)
      hhead]
    cases ws with
    | nil => simp [snakeRunes]
    | cons w' ws' =>
      have hnot : isAcronym w' = false := by
        cases hc : isAcronym w' with
        | false => rfl
        | true => exact absurd ⟨hacr, hc⟩ (hadj w' rfl)
      obtain ⟨p, hp⟩ : ∃ p, tail.getLast?.or (some u) = some p := by
        cases tail.getLast? <;> simp
      rw [hp, hM p (Or.inr (fun w hw' => by
        simp at hw'
        subst hw'
        exact hnot))]

/-- The words read by the loop after a rune `p`: each gets its underscore, when `p` is a
lower-case letter or the first word is not an acronym. -/
theorem snakeRunes_words (ws : List (List Char)) (p : Char)
    (hws : ∀ w ∈ ws, isWord w = true)
    (hadj : ws.Chain' (fun a b => ¬ (isAcronym a = true ∧ isAcronym b = true)))
    (hp : p.isLower = true ∨ ∀ w, ws.head? = some w → isAcronym w = false) :
    snakeRunes (some p) ws.flatten = (ws.map (fun w => '_' :: w)).flatten := by
  induction ws generalizing p with
  | nil => simp [snakeRunes]
  | cons w ws ih =>
    obtain ⟨u, tail, he, hu, hcase⟩ := isWord_cases w (hws w (List.mem_cons_self _ _))
    subst he
    have hws' : ∀ w ∈ ws, isWord w = true := fun w hw => hws w (List.mem_cons_of_mem _ hw)
    have hadj' : ws.Chain' (fun a b => ¬ (isAcronym a = true ∧ isAcronym b = true)) :=
      List.Chain'.tail hadj
    have hrel : ∀ w, ws.head? = some w →
        ¬ (isAcronym (u :: tail) = true ∧ isAcronym w = true) := by
      intro w hw
      cases ws with
      | nil => simp at hw
      | cons w' ws' =>
        simp at hw
        subst hw
        exact (List.chain'_cons.1 hadj).1
    have htail := snakeRunes_word_tail u tail ws (hws _ (List.mem_cons_self _ _)) hws' hrel
      (fun p hp => ih p hws' hadj' hp)
    have hsep : underscoreBefore (some p) u (tail ++ ws.flatten) = true := by
      rcases hp with hp | hp
      · simp [underscoreBefore, hu, hp]
      · have hna := hp (u :: tail) rfl
        rcases hcase with ⟨_, hlow, hne⟩ | ⟨hacr, _⟩
        · cases tail with
          | nil => exact absurd rfl hne
          | cons l ls => simp [underscoreBefore, hu, hlow l (List.mem_cons_self _ _)]
        · simp [hna] at hacr
    simp only [List.flatten_cons, List.map_cons, List.cons_append]
    rw [snakeRunes, hsep, htail]
    simp

theorem snakeRunes_identifier (lead : Option (List Char)) (ws : List (List Char))
    (hlead : ∀ l, lead = some l → isLowerWord l = true) (hne : ws ≠ [])
    (hws : ∀ w ∈ ws, isWord w = true)
    (hadj : ws.Chain' (fun a b => ¬ (isAcronym a = true ∧ isAcronym b = true))) :
    snakeRunes none (lead.toList ++ ws).flatten = List.intercalate ['_'] (lead.toList ++ ws) := by
  cases lead with
  | some l =>
    have hl := hlead l rfl
    match l, hl with
    | c :: cs, hl =>
      simp only [isLowerWord, List.all_eq_true] at hl
      simp only [Option.toList, List.singleton_append, List.flatten_cons, intercalate_underscore]
      rw [snakeRunes_nonupper_run (c :: cs) none _
        (fun d hd => Char.isUpper_false_of_isLower d (hl d hd))]
      have hlast : (c :: cs).getLast? = some ((c :: cs).getLast (List.cons_ne_nil _ _)) :=
        List.getLast?_eq_getLast _ _
      rw [hlast]
      simp only [Option.or_some]
      rw [snakeRunes_words ws _ hws hadj (Or.inl (hl _ (List.getLast_mem _)))]
  | none =>
    cases ws with
    | nil => exact absurd rfl hne
    | cons w ws' =>
      obtain ⟨u, tail, he, hu, hcase⟩ := isWord_cases w (hws w (List.mem_cons_self _ _))
      subst he
      have hws' : ∀ w ∈ ws', isWord w = true := fun w hw => hws w (List.mem_cons_of_mem _ hw)
      have hrel : ∀ w, ws'.head? = some w →
          ¬ (isAcronym (u :: tail) = true ∧ isAcronym w = true) := by
        intro w hw
        cases ws' with
        | nil => simp at hw
        | cons w' ws'' =>
          simp at hw
          subst hw
          exact (List.chain'_cons.1 hadj).1
      have htail := snakeRunes_word_tail u tail ws' (hws _ (List.mem_cons_self _ _)) hws' hrel
        (fun p hp => snakeRunes_words ws' p hws' (List.Chain'.tail hadj) hp)
      simp only [Option.toList, List.nil_append, List.flatten_cons, intercalate_underscore,
        List.cons_append]
      rw [snakeRunes, htail]
      simp [underscoreBefore]

end Generator

namespace Generator

theorem map_intercalate_underscore (f : Char → Char) (hf : f '_' = '_')
    (xs : List (List Char)) :
    (List.intercalate ['_'] xs).map f = List.intercalate ['_'] (xs.map (List.map f)) := by
  cases xs with
  | nil => simp [List.intercalate]
  | cons x xs =>
    rw [List.map_cons, intercalate_underscore, intercalate_underscore]
    simp [List.map_flatten, List.map_map, Function.comp_def, hf]

theorem mem_intercalate_underscore (xs : List (List Char)) (c : Char)
    (h : c ∈ List.intercalate ['_'] xs) : c = '_' ∨ ∃ x ∈ xs, c ∈ x := by
  cases xs with
  | nil => simp [List.intercalate] at h
  | cons x xs =>
    rw [intercalate_underscore] at h
    rcases List.mem_append.1 h with h | h
    · exact Or.inr ⟨x, List.mem_cons_self _ _, h⟩
    · obtain ⟨l, hl, hc⟩ := List.mem_flatten.1 h
      obtain ⟨w, hw, rfl⟩ := List.mem_map.1 hl
      rcases List.mem_cons.1 hc with hc | hc
      · exact Or.inl hc
      · exact Or.inr ⟨w, List.mem_cons_of_mem _ hw, hc⟩

theorem ascii_of_isWord (w : List Char) (h : isWord w = true) (c : Char) (hc : c ∈ w) :
    c.toNat ≤ 0x7F := by
  obtain ⟨u, tail, he, hu, hcase⟩ := isWord_cases w h
  subst he
  have hupper : ∀ d : Char, d.isUpper = true → d.toNat ≤ 0x7F := fun d hd => by
    have := (Char.isUpper_iff_toNat d).1 hd
    omega
  have hlower : ∀ d : Char, d.isLower = true → d.toNat ≤ 0x7F := fun d hd => by
    have := (Char.isLower_iff_toNat d).1 hd
    omega
  rcases List.mem_cons.1 hc with rfl | hc
  · exact hupper _ hu
  · rcases hcase with ⟨_, hlow, _⟩ | ⟨_, hup⟩
    · exact hlower _ (hlow c hc)
    · exact hupper _ (hup c hc)

theorem ascii_of_isLowerWord (w : List Char) (h : isLowerWord w = true) (c : Char)
    (hc : c ∈ w) : c.toNat ≤ 0x7F := by
  match w, h with
  | l :: ls, h =>
    simp only [isLowerWord, List.all_eq_true] at h
    have := (Char.isLower_iff_toNat c).1 (h c hc)
    omega

/-- C8. An identifier made of an optional leading lower-case word and a non-empty
sequence of words (capitalised words and acronyms, no two acronyms adjacent) is turned
into its lower-cased words joined by single underscores; the empty string is left empty. -/
theorem toSnakeCase_words (caseTable : Char → Char) (lead : Option (List Char))
    (ws : List (List Char)) (hlead : ∀ l, lead = some l → isLowerWord l = true)
    (hne : ws ≠ []) (hws : ∀ w ∈ ws, isWord w = true)
    (hadj : ws.Chain' (fun a b => ¬ (isAcronym a = true ∧ isAcronym b = true))) :
    toSnakeCase caseTable ⟨(lead.toList ++ ws).flatten⟩ =
        ⟨List.intercalate ['_'] ((lead.toList ++ ws).map (List.map Char.toLower))⟩ ∧
      toSnakeCase caseTable "" = "" := by
  refine ⟨?_, by simp [toSnakeCase]⟩
  rw [toSnakeCase_eq]
  simp only [snakeRunes_identifier lead ws hlead hne hws hadj]
  congr 1
  rw [← map_intercalate_underscore Char.toLower (by decide)]
  apply List.map_congr_left
  intro c hc
  apply Unicode.ToLower_ascii
  rcases mem_intercalate_underscore _ c hc with rfl | ⟨x, hx, hcx⟩
  · decide
  · rcases List.mem_append.1 hx with hx | hx
    · cases lead with
      | none => simp at hx
      | some l =>
        simp at hx
        subst hx
        exact ascii_of_isLowerWord _ (hlead _ rfl) c hcx
    · exact ascii_of_isWord x (hws x hx) c hcx

/-- C8 at `GetNewsMLDocument` (words `Get`, `News`, `ML`, `Document`) and at `camelCase`
(leading word `camel`, word `Case`), with the other identifiers of the test table. -/
theorem toSnakeCase_words_witness :
    toSnakeCase id "GetNewsMLDocument" = "get_news_ml_document" ∧
    toSnakeCase id "camelCase" = "camel_case" ∧
    toSnakeCase id "WriteDocument" = "write_document" ∧
    toSnakeCase id "HTTPServer" = "http_server" ∧
    toSnakeCase id "XMLParser" = "xml_parser" ∧
    toSnakeCase id "ABC" = "abc" ∧
    toSnakeCase id "" = "" :=
  ⟨(toSnakeCase_words id none ["Get".data, "News".data, "ML".data, "Document".data]
      (by simp) (by simp) (by decide)
      (by simp only [List.chain'_cons, List.chain'_singleton]; decide)).1,
   (toSnakeCase_words id (some "camel".data) ["Case".data]
      (fun l hl => by cases hl; decide) (by simp) (by decide) (List.chain'_singleton _)).1,
   by decide, by decide, by decide, by decide, by decide⟩

end Generator

/-! ## The type mapper -/

namespace Generator

open Protogen Utcp

/-- C11. `protoTypeToJSONType` always returns one of `"boolean"`, `"integer"`, `"number"`,
`"string"`, `"object"`: bool gives `"boolean"`, the ten integer kinds `"integer"`, float
and double `"number"`, string, bytes and enum `"string"`, message `"object"`, and every
other kind value, group and unrecognised numbers included, `"string"`. -/
theorem protoTypeToJSONType_table :
    (∀ kind, protoTypeToJSONType kind ∈ ["boolean", "integer", "number", "string", "object"]) ∧
    protoTypeToJSONType Protoreflect.BoolKind = "boolean" ∧
    (∀ kind ∈ [Protoreflect.Int32Kind, Protoreflect.Sint32Kind, Protoreflect.Uint32Kind,
        Protoreflect.Int64Kind, Protoreflect.Sint64Kind, Protoreflect.Uint64Kind,
        Protoreflect.Sfixed32Kind, Protoreflect.Fixed32Kind, Protoreflect.Sfixed64Kind,
        Protoreflect.Fixed64Kind], protoTypeToJSONType kind = "integer") ∧
    protoTypeToJSONType Protoreflect.FloatKind = "number" ∧
    protoTypeToJSONType Protoreflect.DoubleKind = "number" ∧
    protoTypeToJSONType Protoreflect.StringKind = "string" ∧
    protoTypeToJSONType Protoreflect.BytesKind = "string" ∧
    protoTypeToJSONType Protoreflect.EnumKind = "string" ∧
    protoTypeToJSONType Protoreflect.MessageKind = "object" ∧
    protoTypeToJSONType Protoreflect.GroupKind = "string" ∧
    (∀ kind, kind ∉ [Protoreflect.BoolKind, Protoreflect.Int32Kind, Protoreflect.Sint32Kind,
        Protoreflect.Uint32Kind, Protoreflect.Int64Kind, Protoreflect.Sint64Kind,
        Protoreflect.Uint64Kind, Protoreflect.Sfixed32Kind, Protoreflect.Fixed32Kind,
        Protoreflect.Sfixed64Kind, Protoreflect.Fixed64Kind, Protoreflect.FloatKind,
        Protoreflect.DoubleKind, Protoreflect.StringKind, Protoreflect.BytesKind,
        Protoreflect.EnumKind, Protoreflect.MessageKind] →
      protoTypeToJSONType kind = "string") := by
  refine ⟨?_, by decide, by decide, by decide, by decide, by decide, by decide, by decide,
    by decide, by decide, ?_⟩
  · intro kind
    unfold protoTypeToJSONType
    split_ifs <;> decide
  · intro kind hk
    simp only [List.mem_cons, List.mem_singleton, List.not_mem_nil, or_false, not_or] at hk
    unfold protoTypeToJSONType
    simp [hk]

end Generator

/-! ## Provider synthesis and the configuration -/

namespace Generator

open Protogen Utcp

/-- The configuration `generateToolProvider` leaves behind. -/
theorem generateToolProvider_config (service : Service) (method : Method) (file : File)
    (config : Config) :
    (generateToolProvider service method file config).2 =
      { config with
        BaseURL :=
          if config.BaseURL = "" then
            (if config.ProviderType = "http" then "https://api.example.com"
             else if config.ProviderType = "grpc" ∨ config.ProviderType = "connectrpc" then
               "grpc://api.example.com"
             else "")
          else config.BaseURL } := by
  obtain ⟨b, p, a⟩ := config
  unfold generateToolProvider generateHTTPURL generateGRPCURL
  by_cases h1 : p = "http"
  · by_cases hb : b = "" <;> simp [h1, hb]
  · by_cases h2 : p = "grpc" ∨ p = "connectrpc"
    · by_cases hb : b = "" <;> simp [h1, h2, hb]
    · by_cases hb : b = "" <;> simp [h1, h2, hb]

/-- C16 as stated fails: with an empty `BaseURL` and provider type `"http"` the call writes
the placeholder into the configuration, so `BaseURL` after the call differs from `BaseURL`
before it. -/
theorem generateToolProvider_config_counterexample :
    (generateToolProvider ⟨"Widgets", []⟩ ⟨"Create", "", none, none⟩ ⟨"acme.v1", []⟩
        ⟨"", "http", "bearer"⟩).2.BaseURL ≠
      (Config.mk "" "http" "bearer").BaseURL := by
  decide

/-- The provider read off a configuration. -/
theorem generateToolProvider_provider (service : Service) (method : Method) (file : File)
    (config : Config) :
    (generateToolProvider service method file config).1 =
      { providerType := config.ProviderType,
        url :=
          if config.ProviderType = "http" then
            Strings.TrimSuffix
                (if config.BaseURL = "" then "https://api.example.com" else config.BaseURL) "/" ++
              "/twirp/" ++ file.package ++ "." ++ service.name ++ "/" ++ method.name
          else if config.ProviderType = "grpc" ∨ config.ProviderType = "connectrpc" then
            Strings.TrimSuffix
                (if config.BaseURL = "" then "grpc://api.example.com" else config.BaseURL) "/" ++
              "/" ++ file.package ++ "." ++ service.name ++ "/" ++ method.name
          else
            config.BaseURL ++ "/" ++ file.package ++ "." ++ service.name ++ "/" ++ method.name,
        httpMethod := if config.ProviderType = "http" then "POST" else "",
        auth :=
          if config.AuthType = "" then none
          else some
            { authType := config.AuthType,
              token := if config.AuthType = "bearer" then "$\x7bauth_token\x7d" else "" },
        headers :=
          if config.ProviderType = "http" then some [("Content-Type", "application/json")]
          else none } := by
  obtain ⟨b, p, a⟩ := config
  unfold generateToolProvider generateHTTPURL generateGRPCURL
  by_cases h1 : p = "http"
  · by_cases hb : b = "" <;> by_cases ha : a = "" <;> by_cases ht : a = "bearer" <;>
      simp [h1, hb, ha, ht]
  · by_cases h2 : p = "grpc" ∨ p = "connectrpc"
    · by_cases hb : b = "" <;> by_cases ha : a = "" <;> by_cases ht : a = "bearer" <;>
        simp [h1, h2, hb, ha, ht]
    · by_cases hb : b = "" <;> by_cases ha : a = "" <;> by_cases ht : a = "bearer" <;>
        simp [h1, h2, hb, ha, ht]

/-- C17. The provider synthesised for a second method from the configuration the first
call leaves behind is the provider synthesised for it from the original configuration. -/
theorem generateToolProvider_order_independent (service₁ service₂ : Service)
    (method₁ method₂ : Method) (file₁ file₂ : File) (config : Config) :
    (generateToolProvider service₂ method₂ file₂
        (generateToolProvider service₁ method₁ file₁ config).2).1 =
      (generateToolProvider service₂ method₂ file₂ config).1 := by
  rw [generateToolProvider_provider, generateToolProvider_provider, generateToolProvider_config]
  obtain ⟨b, p, a⟩ := config
  by_cases h1 : p = "http"
  · by_cases hb : b = "" <;> simp [h1, hb]
  · by_cases h2 : p = "grpc" ∨ p = "connectrpc"
    · by_cases hb : b = "" <;> simp [h1, h2, hb]
    · by_cases hb : b = "" <;> simp [h1, h2, hb]

/-- C16, amended. `generateToolProvider` leaves `ProviderType` and `AuthType` as they
were. It leaves a non-empty `BaseURL` as it was, and the whole configuration when the
provider type is none of `"http"`, `"grpc"`, `"connectrpc"`; an empty `BaseURL` is
overwritten in the configuration with `"https://api.example.com"` for `"http"` and with
`"grpc://api.example.com"` for `"grpc"` and `"connectrpc"`, and stays so after the call. -/
theorem generateToolProvider_config_frame (service : Service) (method : Method) (file : File)
    (config : Config) :
    (generateToolProvider service method file config).2.ProviderType = config.ProviderType ∧
    (generateToolProvider service method file config).2.AuthType = config.AuthType ∧
    (generateToolProvider service method file config).2.BaseURL =
      (if config.BaseURL = "" then
        (if config.ProviderType = "http" then "https://api.example.com"
         else if config.ProviderType = "grpc" ∨ config.ProviderType = "connectrpc" then
           "grpc://api.example.com"
         else "")
       else config.BaseURL) ∧
    (config.BaseURL ≠ "" ∨
        (config.ProviderType ≠ "http" ∧ config.ProviderType ≠ "grpc" ∧
          config.ProviderType ≠ "connectrpc") →
      (generateToolProvider service method file config).2 = config) := by
  rw [generateToolProvider_config]
  refine ⟨rfl, rfl, rfl, ?_⟩
  obtain ⟨b, p, a⟩ := config
  rintro (h | ⟨h1, h2, h3⟩)
  · simp only at h
    simp [h]
  · simp only at h1 h2 h3
    by_cases hb : b = "" <;> simp [h1, h2, h3, hb]

/-- C18 as stated fails: the method `Create` of the service `Widgets` has no leading
documentation, and the description of its tool is not empty. -/
theorem generateTool_description_counterexample :
    extractComment (Method.mk "Create" "" none none).leading = "" ∧
    (generateTool id ⟨"Widgets", []⟩ ⟨"Create", "", none, none⟩ ⟨"acme.v1", []⟩
        ⟨"", "http", "bearer"⟩).1.description = "Create method in Widgets service" ∧
    (generateTool id ⟨"Widgets", []⟩ ⟨"Create", "", none, none⟩ ⟨"acme.v1", []⟩
        ⟨"", "http", "bearer"⟩).1.description ≠ "" := by
  decide

/-- C18, amended. A tool's description is the comment extractor's output on the method's
leading documentation when that output is not empty, and the text
`<Method> method in <Service> service` when it is; it is never the empty string. -/
theorem generateTool_description (caseTable : Char → Char) (service : Service)
    (method : Method) (file : File) (config : Config) :
    (generateTool caseTable service method file config).1.description =
      (if extractComment method.leading = "" then
        method.name ++ " method in " ++ service.name ++ " service"
      else extractComment method.leading) ∧
    (generateTool caseTable service method file config).1.description ≠ "" := by
  have h : (generateTool caseTable service method file config).1.description =
      (if extractComment method.leading = "" then
        method.name ++ " method in " ++ service.name ++ " service"
      else extractComment method.leading) := rfl
  refine ⟨h, ?_⟩
  rw [h]
  split
  · intro hc
    have := congrArg String.data hc
    simp at this
  · assumption

end Generator

/-! ## The property map of a message -/

namespace Generator

open Protogen Utcp

theorem generateInputSchema_loop_properties (fields : List Protogen.Field)
    (schema : InputSchema) (props : List (String × Property))
    (hp : schema.properties = some props) :
    (fields.foldl
      (fun (schema : InputSchema) (field : Protogen.Field) =>
        let prop := messageFieldToProperty field
        let schema : InputSchema :=
          { schema with
            properties := some (GoMap.assign (schema.properties.getD []) field.jsonName prop) }
        if field.cardinality = Protoreflect.Required then
          { schema with required := schema.required ++ [field.jsonName] }
        else schema)
      schema).properties =
      some (fields.foldl
        (fun acc g => GoMap.assign acc g.jsonName (messageFieldToProperty g)) props) := by
  induction fields generalizing schema props with
  | nil => simpa using hp
  | cons f fs ih =>
    simp only [List.foldl_cons]
    apply ih
    by_cases hr : f.cardinality = Protoreflect.Required <;> simp [hr, hp]

theorem generateOutputSchema_loop_properties (fields : List Protogen.Field)
    (schema : OutputSchema) (props : List (String × Property))
    (hp : schema.properties = some props) :
    (fields.foldl
      (fun (schema : OutputSchema) (field : Protogen.Field) =>
        let prop := messageFieldToProperty field
        { schema with
          properties := some (GoMap.assign (schema.properties.getD []) field.jsonName prop) })
      schema).properties =
      some (fields.foldl
        (fun acc g => GoMap.assign acc g.jsonName (messageFieldToProperty g)) props) := by
  induction fields generalizing schema props with
  | nil => simpa using hp
  | cons f fs ih =>
    simp only [List.foldl_cons]
    apply ih
    simp [hp]

theorem generateInputSchema_properties (message : Protogen.Message) :
    (generateInputSchema message).properties =
      some (message.fields.foldl
        (fun acc g => GoMap.assign acc g.jsonName (messageFieldToProperty g)) []) :=
  generateInputSchema_loop_properties message.fields _ [] rfl

theorem generateOutputSchema_properties (message : Protogen.Message) :
    (generateOutputSchema message).properties =
      some (message.fields.foldl
        (fun acc g => GoMap.assign acc g.jsonName (messageFieldToProperty g)) []) :=
  generateOutputSchema_loop_properties message.fields _ [] rfl

/-- C20. The property map built for a message is the same wherever the message is used:
`generateInputSchema` and `generateOutputSchema` give the same `Properties`, the map that
assigns to each field's JSON name the property of that field, in declaration order; and a
singular, non-map field of message kind that refers to the message gets that same map. -/
theorem properties_independent_of_use (message : Protogen.Message) :
    (generateInputSchema message).properties = (generateOutputSchema message).properties ∧
    (generateInputSchema message).properties =
      some (message.fields.foldl
        (fun acc g => GoMap.assign acc g.jsonName (messageFieldToProperty g)) []) ∧
    ∀ f : Protogen.Field, f.isList = false → f.isMap = false →
      f.kind = Protoreflect.MessageKind → f.message = some message →
      (messageFieldToProperty f).properties = (generateInputSchema message).properties := by
  refine ⟨?_, generateInputSchema_properties message, ?_⟩
  · rw [generateInputSchema_properties, generateOutputSchema_properties]
  · intro f hl hm hk hmsg
    rw [generateInputSchema_properties, messageFieldToProperty_eq]
    simp [hl, hm, hk, hmsg, Property.properties, nestedProperties_eq_foldl]

end Generator

/-! ## The document assembler -/

namespace Generator

open Protogen Utcp

theorem generateTool_name (caseTable : Char → Char) (service : Service) (method : Method)
    (file : File) (config : Config) :
    (generateTool caseTable service method file config).1.name =
      toSnakeCase caseTable method.name := rfl

theorem generateServiceTools_loop_names (caseTable : Char → Char) (service : Service)
    (file : File) (methods : List Method) (acc : List Tool × Config) :
    (methods.foldl
      (fun (acc : List Tool × Config) method =>
        let r := generateTool caseTable service method file acc.2
        (acc.1 ++ [r.1], r.2))
      acc).1.map Tool.name =
      acc.1.map Tool.name ++ methods.map (fun m => toSnakeCase caseTable m.name) := by
  induction methods generalizing acc with
  | nil => simp
  | cons m ms ih =>
    simp only [List.foldl_cons]
    rw [ih]
    simp [generateTool_name]

theorem generateServiceTools_names (caseTable : Char → Char) (service : Service)
    (file : File) (config : Config) :
    (generateServiceTools caseTable service file config).1.map Tool.name =
      service.methods.map (fun m => toSnakeCase caseTable m.name) := by
  unfold generateServiceTools
  rw [generateServiceTools_loop_names]
  simp

theorem GenerateFile_loop_names (caseTable : Char → Char) (file : File)
    (services : List Service) (acc : List Tool × Config) :
    (services.foldl
      (fun (acc : List Tool × Config) service =>
        let serviceTools := generateServiceTools caseTable service file acc.2
        (acc.1 ++ serviceTools.1, serviceTools.2))
      acc).1.map Tool.name =
      acc.1.map Tool.name ++
        (services.map (fun s => s.methods.map (fun m => toSnakeCase caseTable m.name))).flatten := by
  induction services generalizing acc with
  | nil => simp
  | cons s ss ih =>
    simp only [List.foldl_cons]
    rw [ih]
    simp [generateServiceTools_names]

/-- The names of the tools `GenerateFile` assembles. -/
theorem GenerateFile_names (caseTable : Char → Char) (file : File) (config : Config)
    (h : file.services ≠ []) :
    ∃ tools, (GenerateFile caseTable file config).1 = some tools ∧
      tools.tools.map Tool.name =
        (file.services.map
          (fun s => s.methods.map (fun m => toSnakeCase caseTable m.name))).flatten := by
  unfold GenerateFile
  have h0 : ¬ file.services.length = 0 := by
    simpa [List.length_eq_zero] using h
  rw [if_neg h0]
  refine ⟨_, rfl, ?_⟩
  simp only
  rw [GenerateFile_loop_names]
  simp

/-- C14 as stated fails: the method names `GetID` and `GetId` are distinct, and both
tools are named `get_id`. -/
theorem tool_names_distinct_counterexample :
    (["GetID", "GetId"] : List String).Nodup ∧
    ∃ tools,
      (GenerateFile id
        ⟨"acme.v1", [⟨"Widgets", [⟨"GetID", "", none, none⟩, ⟨"GetId", "", none, none⟩]⟩]⟩
        ⟨"", "http", "bearer"⟩).1 = some tools ∧
      tools.tools.map Tool.name = ["get_id", "get_id"] ∧
      ¬ (tools.tools.map Tool.name).Nodup := by
  refine ⟨by decide, _, rfl, by decide, by decide⟩

/-- C14, amended. For a file whose methods, across all of its services, have pairwise
distinct `toSnakeCase` images, the assembled tools have pairwise distinct names. (Distinct
method names are not enough: `toSnakeCase` is not injective.) -/
theorem tool_names_distinct (caseTable : Char → Char) (file : File) (config : Config)
    (h : file.services ≠ [])
    (hd : ((file.services.map
      (fun s => s.methods.map (fun m => toSnakeCase caseTable m.name))).flatten).Nodup) :
    ∃ tools, (GenerateFile caseTable file config).1 = some tools ∧
      (tools.tools.map Tool.name).Nodup := by
  obtain ⟨tools, h1, h2⟩ := GenerateFile_names caseTable file config h
  exact ⟨tools, h1, h2 ▸ hd⟩

/-- C14, amended, at a file with the methods `GetID` and `ListIDs`. -/
theorem tool_names_distinct_witness :
    ∃ tools,
      (GenerateFile id
        ⟨"acme.v1", [⟨"Widgets", [⟨"GetID", "", none, none⟩, ⟨"ListIDs", "", none, none⟩]⟩]⟩
        ⟨"", "http", "bearer"⟩).1 = some tools ∧
      (tools.tools.map Tool.name).Nodup :=
  tool_names_distinct id
    ⟨"acme.v1", [⟨"Widgets", [⟨"GetID", "", none, none⟩, ⟨"ListIDs", "", none, none⟩]⟩]⟩
    ⟨"", "http", "bearer"⟩ (by simp) (by decide)

end Generator

/-! ## The comment extractor -/

namespace Strings

theorem splitRunes_ne_nil (sep : Char) (l : List Char) : splitRunes sep l ≠ [] := by
  induction l with
  | nil => simp [splitRunes]
  | cons c l ih =>
    unfold splitRunes
    split
    · simp
    · split <;> simp

theorem splitRunes_cons_sep (sep : Char) (l : List Char) :
    splitRunes sep (sep :: l) = [] :: splitRunes sep l := by
  simp [splitRunes]

theorem splitRunes_cons_ne (sep c : Char) (l : List Char) (h : c ≠ sep) :
    ∃ piece pieces, splitRunes sep l = piece :: pieces ∧
      splitRunes sep (c :: l) = (c :: piece) :: pieces := by
  cases hs : splitRunes sep l with
  | nil => exact absurd hs (splitRunes_ne_nil sep l)
  | cons piece pieces =>
    refine ⟨piece, pieces, rfl, ?_⟩
    simp [splitRunes, h, hs]

theorem splitRunes_concat_sep (sep : Char) (l : List Char) :
    splitRunes sep (l ++ [sep]) = splitRunes sep l ++ [[]] := by
  induction l with
  | nil => simp [splitRunes]
  | cons c l ih =>
    by_cases h : c = sep
    · subst h
      simp [splitRunes_cons_sep, ih]
    · obtain ⟨piece, pieces, h1, h2⟩ := splitRunes_cons_ne sep c l h
      obtain ⟨piece', pieces', h1', h2'⟩ := splitRunes_cons_ne sep c (l ++ [sep]) h
      rw [List.cons_append, h2, h2']
      rw [ih, h1] at h1'
      simp only [List.cons_append, List.cons.injEq] at h1'
      rw [← h1'.1, ← h1'.2]
      simp

theorem splitRunes_concat_ne (sep c : Char) (l : List Char) (h : c ≠ sep) :
    ∃ pieces piece, splitRunes sep l = pieces ++ [piece] ∧
      splitRunes sep (l ++ [c]) = pieces ++ [piece ++ [c]] := by
  induction l with
  | nil => exact ⟨[], [], by simp [splitRunes], by simp [splitRunes, h]⟩
  | cons d l ih =>
    obtain ⟨pieces, piece, h1, h2⟩ := ih
    by_cases hd : d = sep
    · subst hd
      exact ⟨[] :: pieces, piece, by simp [splitRunes_cons_sep, h1],
        by simp [splitRunes_cons_sep, h2]⟩
    · obtain ⟨p, ps, e1, e2⟩ := splitRunes_cons_ne sep d l hd
      obtain ⟨p', ps', e1', e2'⟩ := splitRunes_cons_ne sep d (l ++ [c]) hd
      rw [List.cons_append, e2, e2']
      rw [h1] at e1
      rw [h2] at e1'
      cases pieces with
      | nil =>
        simp only [List.nil_append, List.cons.injEq] at e1 e1'
        refine ⟨[], d :: piece, ?_, ?_⟩
        · simp [← e1.1, ← e1.2]
        · simp [← e1'.1, ← e1'.2]
      | cons q qs =>
        simp only [List.cons_append, List.cons.injEq] at e1 e1'
        refine ⟨(d :: q) :: qs, piece, ?_, ?_⟩
        · simp [← e1.1, ← e1.2]
        · simp [← e1'.1, ← e1'.2]

theorem not_mem_of_mem_splitRunes (sep : Char) (l : List Char) :
    ∀ piece ∈ splitRunes sep l, sep ∉ piece := by
  induction l with
  | nil => simp [splitRunes]
  | cons c l ih =>
    by_cases h : c = sep
    · subst h
      rw [splitRunes_cons_sep]
      intro piece hp
      rcases List.mem_cons.1 hp with rfl | hp
      · simp
      · exact ih piece hp
    · obtain ⟨p, ps, e1, e2⟩ := splitRunes_cons_ne sep c l h
      rw [e2]
      rw [e1] at ih
      intro piece hp
      rcases List.mem_cons.1 hp with rfl | hp
      · intro hm
        rcases List.mem_cons.1 hm with hm | hm
        · exact h hm.symm
        · exact ih p (List.mem_cons_self _ _) hm
      · exact ih piece (List.mem_cons_of_mem _ hp)

/-- `TrimSpace` on the runes. -/
theorem TrimSpace_data (s : String) :
    (TrimSpace s).data = (s.data.dropWhile Unicode.IsSpace).rdropWhile Unicode.IsSpace := rfl

theorem TrimSpace_cons_space (c : Char) (l : List Char) (h : Unicode.IsSpace c = true) :
    TrimSpace ⟨c :: l⟩ = TrimSpace ⟨l⟩ := by
  simp [TrimSpace, h]

theorem TrimSpace_concat_space (c : Char) (l : List Char) (h : Unicode.IsSpace c = true) :
    TrimSpace ⟨l ++ [c]⟩ = TrimSpace ⟨l⟩ := by
  unfold TrimSpace
  congr 1
  simp only
  rw [List.dropWhile_append]
  split
  · rename_i he
    have : List.dropWhile Unicode.IsSpace l = [] := by simpa using he
    simp [this, h, List.rdropWhile_nil]
  · exact List.rdropWhile_concat_pos _ _ _ h

end Strings

namespace Generator

open Protogen Utcp

theorem cleanLine_cons_space (c : Char) (l : List Char) (h : Unicode.IsSpace c = true) :
    cleanLine ⟨c :: l⟩ = cleanLine ⟨l⟩ := by
  unfold cleanLine
  rw [Strings.TrimSpace_cons_space c l h]

theorem cleanLine_concat_space (c : Char) (l : List Char) (h : Unicode.IsSpace c = true) :
    cleanLine ⟨l ++ [c]⟩ = cleanLine ⟨l⟩ := by
  unfold cleanLine
  rw [Strings.TrimSpace_concat_space c l h]

theorem cleanLine_empty : cleanLine "" = "" := by decide

/-- The lines of a text that survive the cleaning, in order. -/
theorem cleanedLines_cons_space (c : Char) (l : List Char) (h : Unicode.IsSpace c = true) :
    (((Strings.splitRunes '\n' (c :: l)).map String.mk).map cleanLine).filter
        (fun line => line ≠ "") =
      (((Strings.splitRunes '\n' l).map String.mk).map cleanLine).filter
        (fun line => line ≠ "") := by
  by_cases hc : c = '\n'
  · subst hc
    rw [Strings.splitRunes_cons_sep]
    simp [cleanLine_empty]
  · obtain ⟨p, ps, e1, e2⟩ := Strings.splitRunes_cons_ne '\n' c l hc
    rw [e2, e1]
    simp [cleanLine_cons_space c p h]


theorem cleanedLines_concat_space (c : Char) (l : List Char) (h : Unicode.IsSpace c = true) :
    (((Strings.splitRunes '\n' (l ++ [c])).map String.mk).map cleanLine).filter
        (fun line => line ≠ "") =
      (((Strings.splitRunes '\n' l).map String.mk).map cleanLine).filter
        (fun line => line ≠ "") := by
  by_cases hc : c = '\n'
  · subst hc
    rw [Strings.splitRunes_concat_sep]
    simp [cleanLine_empty]
  · obtain ⟨ps, p, e1, e2⟩ := Strings.splitRunes_concat_ne '\n' c l hc
    rw [e2, e1]
    simp [cleanLine_concat_space c p h]

theorem cleanedLines_dropWhile (l : List Char) :
    (((Strings.splitRunes '\n' (l.dropWhile Unicode.IsSpace)).map String.mk).map
        cleanLine).filter (fun line => line ≠ "") =
      (((Strings.splitRunes '\n' l).map String.mk).map cleanLine).filter
        (fun line => line ≠ "") := by
  induction l with
  | nil => rfl
  | cons c l ih =>
    by_cases h : Unicode.IsSpace c = true
    · rw [List.dropWhile_cons_of_pos h, ih, cleanedLines_cons_space c l h]
    · rw [List.dropWhile_cons_of_neg h]

theorem cleanedLines_rdropWhile (l : List Char) :
    (((Strings.splitRunes '\n' (l.rdropWhile Unicode.IsSpace)).map String.mk).map
        cleanLine).filter (fun line => line ≠ "") =
      (((Strings.splitRunes '\n' l).map String.mk).map cleanLine).filter
        (fun line => line ≠ "") := by
  induction l using List.reverseRecOn with
  | nil => rfl
  | append_singleton l c ih =>
    by_cases h : Unicode.IsSpace c = true
    · rw [List.rdropWhile_concat_pos _ _ _ h, ih, cleanedLines_concat_space c l h]
    · rw [List.rdropWhile_concat_neg _ _ _ h]

/-- The whole-text `TrimSpace` of `extractComment` removes no line that survives the
cleaning and changes no cleaned line. -/
theorem cleanedLines_TrimSpace (text : String) :
    ((Strings.Split (Strings.TrimSpace text) '\n').map cleanLine).filter
        (fun line => line ≠ "") =
      ((Strings.Split text '\n').map cleanLine).filter (fun line => line ≠ "") := by
  unfold Strings.Split
  rw [Strings.TrimSpace_data, cleanedLines_rdropWhile, cleanedLines_dropWhile]

theorem extractCommentStep_eq (cleaned : List String) (line : String) :
    extractCommentStep cleaned line =
      cleaned ++ (if cleanLine line ≠ "" then [cleanLine line] else []) := by
  unfold extractCommentStep cleanLine
  split
  · rename_i h
    simp [h]
  · rename_i h
    simp [not_not.1 h]

theorem extractComment_loop (lines cleaned : List String) :
    lines.foldl extractCommentStep cleaned =
      cleaned ++ (lines.map cleanLine).filter (fun line => line ≠ "") := by
  induction lines generalizing cleaned with
  | nil => simp
  | cons line lines ih =>
    rw [List.foldl_cons, ih, extractCommentStep_eq]
    by_cases h : cleanLine line = "" <;> simp [h]

/-- The function `extractComment` is the line-wise algorithm on the raw text. -/
theorem extractComment_eq_spec (text : String) :
    extractComment text = extractCommentSpec text := by
  unfold extractComment extractCommentSpec
  split
  · rename_i h
    subst h
    decide
  · simp only [extractComment_loop, List.nil_append, cleanedLines_TrimSpace]

/-- C19. For every text `extractComment` is the line-wise algorithm of the specification
applied to the raw text: the early return on the empty text and the `TrimSpace` of the
whole text change nothing. -/
theorem extractComment_refines_spec (text : String) :
    extractComment text = extractCommentSpec text :=
  extractComment_eq_spec text

/-- C19 at the text of two sentences with an empty line between them. -/
theorem extractComment_refines_spec_witness :
    extractComment "A.\n\nB." = extractCommentSpec "A.\n\nB." ∧
      extractCommentSpec "A.\n\nB." = "A. B." :=
  ⟨extractComment_refines_spec "A.\n\nB.", by decide⟩

end Generator

/-! ## The comment extractor: the shape of the output -/

theorem List.intercalate_cons_cons' {α : Type} (sep x y : List α) (ys : List (List α)) :
    List.intercalate sep (x :: y :: ys) = x ++ sep ++ List.intercalate sep (y :: ys) := by
  simp [List.intercalate, List.intersperse_cons_cons]

theorem List.intercalate_singleton' {α : Type} (sep x : List α) :
    List.intercalate sep [x] = x := by
  simp [List.intercalate]

theorem List.mem_intercalate' {α : Type} (sep : List α) (ls : List (List α)) (c : α)
    (h : c ∈ List.intercalate sep ls) : c ∈ sep ∨ ∃ l ∈ ls, c ∈ l := by
  induction ls with
  | nil => simp [List.intercalate] at h
  | cons x xs ih =>
    cases xs with
    | nil =>
      rw [List.intercalate_singleton'] at h
      exact Or.inr ⟨x, List.mem_cons_self _ _, h⟩
    | cons y ys =>
      rw [List.intercalate_cons_cons'] at h
      rcases List.mem_append.1 h with h | h
      · rcases List.mem_append.1 h with h | h
        · exact Or.inr ⟨x, List.mem_cons_self _ _, h⟩
        · exact Or.inl h
      · rcases ih h with h | ⟨l, hl, hc⟩
        · exact Or.inl h
        · exact Or.inr ⟨l, List.mem_cons_of_mem _ hl, hc⟩

theorem List.intercalate_ne_nil' {α : Type} (sep x : List α) (xs : List (List α))
    (hx : x ≠ []) : List.intercalate sep (x :: xs) ≠ [] := by
  cases xs with
  | nil => rwa [List.intercalate_singleton']
  | cons y ys =>
    rw [List.intercalate_cons_cons']
    simp [hx]

theorem List.head?_intercalate' {α : Type} (sep x : List α) (xs : List (List α))
    (hx : x ≠ []) : (List.intercalate sep (x :: xs)).head? = x.head? := by
  cases xs with
  | nil => rw [List.intercalate_singleton']
  | cons y ys =>
    rw [List.intercalate_cons_cons']
    cases x with
    | nil => exact absurd rfl hx
    | cons a as => rfl

theorem List.getLast?_intercalate' {α : Type} (sep : List α) (ls : List (List α))
    (hne : ∀ l ∈ ls, l ≠ []) (c : α) (h : (List.intercalate sep ls).getLast? = some c) :
    ∃ l ∈ ls, l.getLast? = some c := by
  induction ls with
  | nil => simp [List.intercalate] at h
  | cons x xs ih =>
    cases xs with
    | nil =>
      rw [List.intercalate_singleton'] at h
      exact ⟨x, List.mem_cons_self _ _, h⟩
    | cons y ys =>
      rw [List.intercalate_cons_cons', List.getLast?_append] at h
      have hR := List.intercalate_ne_nil' sep y ys (hne y (by simp))
      rw [List.getLast?_eq_getLast _ hR] at h
      simp only [Option.or_some] at h
      have h' : (List.intercalate sep (y :: ys)).getLast? = some c := by
        rw [List.getLast?_eq_getLast _ hR]
        exact h
      obtain ⟨l, hl, hc⟩ := ih (fun l hl => hne l (List.mem_cons_of_mem _ hl)) h'
      exact ⟨l, List.mem_cons_of_mem _ hl, hc⟩

namespace Strings

theorem mem_of_mem_TrimSpace (s : String) (c : Char) (h : c ∈ (TrimSpace s).data) :
    c ∈ s.data := by
  rw [TrimSpace_data] at h
  exact (List.dropWhile_suffix _).subset ((List.rdropWhile_prefix _ _).subset h)

theorem mem_of_mem_TrimPrefix (s pre : String) (c : Char)
    (h : c ∈ (TrimPrefix s pre).data) : c ∈ s.data := by
  unfold TrimPrefix at h
  split at h
  · exact List.mem_of_mem_drop h
  · exact h

theorem mem_of_mem_TrimSuffix (s suf : String) (c : Char)
    (h : c ∈ (TrimSuffix s suf).data) : c ∈ s.data := by
  unfold TrimSuffix at h
  split at h
  · exact List.mem_of_mem_take h
  · exact h

theorem TrimSpace_head_not_space (s : String) (c : Char)
    (h : (TrimSpace s).data.head? = some c) : Unicode.IsSpace c = false := by
  rw [TrimSpace_data] at h
  obtain ⟨t, ht⟩ := List.rdropWhile_prefix Unicode.IsSpace
    (s.data.dropWhile Unicode.IsSpace)
  have h2 := List.head?_dropWhile_not Unicode.IsSpace s.data
  rw [← ht] at h2
  cases hr : List.rdropWhile Unicode.IsSpace (List.dropWhile Unicode.IsSpace s.data) with
  | nil => simp [hr] at h
  | cons a as =>
    rw [hr] at h h2
    simp only [List.head?_cons, Option.some.injEq] at h
    subst h
    simpa using h2

theorem TrimSpace_last_not_space (s : String) (c : Char)
    (h : (TrimSpace s).data.getLast? = some c) : Unicode.IsSpace c = false := by
  rw [TrimSpace_data] at h
  have hne : List.rdropWhile Unicode.IsSpace (List.dropWhile Unicode.IsSpace s.data) ≠ [] := by
    intro hc
    simp [hc] at h
  have := List.rdropWhile_last_not Unicode.IsSpace _ hne
  rw [List.getLast?_eq_getLast _ hne] at h
  simp only [Option.some.injEq] at h
  subst h
  simpa using this

theorem TrimSpace_of_all_space (s : String) (h : ∀ c ∈ s.data, Unicode.IsSpace c = true) :
    TrimSpace s = "" := by
  have hd : s.data.dropWhile Unicode.IsSpace = [] := List.dropWhile_eq_nil_iff.2 h
  unfold TrimSpace
  rw [hd]
  rfl

end Strings

namespace Generator

open Protogen Utcp

theorem mem_of_mem_cleanLine (line : String) (c : Char) (h : c ∈ (cleanLine line).data) :
    c ∈ line.data := by
  unfold cleanLine at h
  exact Strings.mem_of_mem_TrimSpace _ _
    (Strings.mem_of_mem_TrimPrefix _ _ _
      (Strings.mem_of_mem_TrimPrefix _ _ _
        (Strings.mem_of_mem_TrimSuffix _ _ _ (Strings.mem_of_mem_TrimSpace _ _ h))))

/-- The lines `extractComment` joins: cleaned lines of the text, none empty. -/
theorem mem_cleanedLines (text : String) (e : String)
    (h : e ∈ ((Strings.Split text '\n').map cleanLine).filter (fun line => line ≠ "")) :
    e ≠ "" ∧ ∃ line ∈ Strings.Split text '\n', e = cleanLine line ∧ '\n' ∉ line.data := by
  obtain ⟨h1, h2⟩ := List.mem_filter.1 h
  obtain ⟨line, hl, rfl⟩ := List.mem_map.1 h1
  refine ⟨by simpa using h2, line, hl, rfl, ?_⟩
  unfold Strings.Split at hl
  obtain ⟨piece, hp, rfl⟩ := List.mem_map.1 hl
  exact Strings.not_mem_of_mem_splitRunes '\n' _ piece hp

theorem extractComment_data (text : String) :
    (extractComment text).data =
      List.intercalate [' ']
        ((((Strings.Split text '\n').map cleanLine).filter (fun line => line ≠ "")).map
          String.data) := by
  rw [extractComment_eq_spec]
  rfl

/-- C12. The output of `extractComment` is one trimmed line: it holds no newline, its
first and its last rune are no whitespace, and it is empty when every rune of the input is
whitespace (the empty input included). -/
theorem extractComment_single_line_trimmed (text : String) :
    '\n' ∉ (extractComment text).data ∧
    (∀ c, (extractComment text).data.head? = some c → Unicode.IsSpace c = false) ∧
    (∀ c, (extractComment text).data.getLast? = some c → Unicode.IsSpace c = false) ∧
    ((∀ c ∈ text.data, Unicode.IsSpace c = true) → extractComment text = "") := by
  have hne : ∀ l ∈ (((Strings.Split text '\n').map cleanLine).filter
      (fun line => line ≠ "")).map String.data, l ≠ [] := by
    intro l hl
    obtain ⟨e, he, rfl⟩ := List.mem_map.1 hl
    have := (mem_cleanedLines text e he).1
    intro hc
    exact this (String.ext hc)
  refine ⟨?_, ?_, ?_, ?_⟩
  · rw [extractComment_data]
    intro hmem
    rcases List.mem_intercalate' _ _ _ hmem with h | ⟨l, hl, hc⟩
    · simp at h
    · obtain ⟨e, he, rfl⟩ := List.mem_map.1 hl
      obtain ⟨_, line, _, rfl, hn⟩ := mem_cleanedLines text e he
      exact hn (mem_of_mem_cleanLine line _ hc)
  · intro c hc
    rw [extractComment_data] at hc
    cases hls : (((Strings.Split text '\n').map cleanLine).filter
        (fun line => line ≠ "")).map String.data with
    | nil =>
      rw [hls] at hc
      simp [List.intercalate] at hc
    | cons x xs =>
      rw [hls] at hc hne
      rw [List.head?_intercalate' _ x xs (hne x (List.mem_cons_self _ _))] at hc
      have hx : x ∈ (((Strings.Split text '\n').map cleanLine).filter
          (fun line => line ≠ "")).map String.data := by
        rw [hls]
        exact List.mem_cons_self _ _
      obtain ⟨e, he, rfl⟩ := List.mem_map.1 hx
      obtain ⟨_, line, _, rfl, _⟩ := mem_cleanedLines text e he
      exact Strings.TrimSpace_head_not_space _ c hc
  · intro c hc
    rw [extractComment_data] at hc
    obtain ⟨l, hl, hlc⟩ := List.getLast?_intercalate' _ _ hne c hc
    obtain ⟨e, he, rfl⟩ := List.mem_map.1 hl
    obtain ⟨_, line, _, rfl, _⟩ := mem_cleanedLines text e he
    exact Strings.TrimSpace_last_not_space _ c hlc
  · intro hall
    unfold extractComment
    split
    · rfl
    · rw [Strings.TrimSpace_of_all_space text hall]
      decide

/-- C12 at the text of the test table, and at a text of blank lines. -/
theorem extractComment_single_line_trimmed_witness :
    extractComment "  \n  Method to check weather a document exists  \n  " =
      "Method to check weather a document exists" ∧
    '\n' ∉ (extractComment "  \n  Method to check weather a document exists  \n  ").data ∧
    extractComment " \n\t\n " = "" :=
  ⟨by decide,
   (extractComment_single_line_trimmed
      "  \n  Method to check weather a document exists  \n  ").1,
   (extractComment_single_line_trimmed " \n\t\n ").2.2.2 (by decide)⟩

end Generator

/-! ## The comment extractor: comment markers -/

theorem List.prefix_of_prefix_append_sep {α : Type} (m u v : List α) (c : α) (hc : c ∉ m)
    (h : m <+: u ++ c :: v) : m <+: u := by
  induction u generalizing m with
  | nil =>
    rcases List.prefix_cons_iff.1 h with rfl | ⟨t, rfl, _⟩
    · exact List.prefix_refl _
    · exact absurd (List.mem_cons_self _ _) hc
  | cons a u ih =>
    rw [List.cons_append] at h
    rcases List.prefix_cons_iff.1 h with rfl | ⟨t, rfl, ht⟩
    · exact List.nil_prefix
    · have := ih t (fun hm => hc (List.mem_cons_of_mem _ hm)) ht
      exact (List.prefix_cons_inj a).2 this

theorem List.infix_of_infix_append_sep {α : Type} (m a b : List α) (c : α) (hc : c ∉ m)
    (h : m <:+: a ++ c :: b) : m <:+: a ∨ m <:+: b := by
  induction a with
  | nil =>
    rcases List.infix_cons_iff.1 h with h | h
    · have := List.prefix_of_prefix_append_sep m [] b c hc h
      exact Or.inl this.isInfix
    · exact Or.inr h
  | cons x a ih =>
    rw [List.cons_append] at h
    rcases List.infix_cons_iff.1 h with h | h
    · exact Or.inl (List.prefix_of_prefix_append_sep m (x :: a) b c hc h).isInfix
    · rcases ih h with h | h
      · exact Or.inl (List.infix_cons h)
      · exact Or.inr h

theorem List.infix_of_infix_intercalate {α : Type} (m : List α) (c : α) (ls : List (List α))
    (hc : c ∉ m) (hm : m ≠ []) (h : m <:+: List.intercalate [c] ls) :
    ∃ l ∈ ls, m <:+: l := by
  induction ls with
  | nil =>
    simp [List.intercalate] at h
    exact absurd h hm
  | cons x xs ih =>
    cases xs with
    | nil =>
      rw [List.intercalate_singleton'] at h
      exact ⟨x, List.mem_cons_self _ _, h⟩
    | cons y ys =>
      rw [List.intercalate_cons_cons', List.append_assoc, List.singleton_append] at h
      rcases List.infix_of_infix_append_sep m x _ c hc h with h | h
      · exact ⟨x, List.mem_cons_self _ _, h⟩
      · obtain ⟨l, hl, hml⟩ := ih h
        exact ⟨l, List.mem_cons_of_mem _ hl, hml⟩

/-- A list of a family is a contiguous part of the family joined with a separator. -/
theorem List.infix_intercalate_of_mem {α : Type} (sep l : List α) (ls : List (List α))
    (h : l ∈ ls) : l <:+: List.intercalate sep ls := by
  induction ls with
  | nil => simp at h
  | cons x xs ih =>
    cases xs with
    | nil =>
      rw [List.intercalate_singleton']
      rcases List.mem_cons.1 h with rfl | h
      · exact List.infix_refl _
      · simp at h
    | cons y ys =>
      rw [List.intercalate_cons_cons']
      rcases List.mem_cons.1 h with rfl | h
      · exact ⟨[], sep ++ List.intercalate sep (y :: ys), by simp⟩
      · exact List.IsInfix.trans (ih h) (List.suffix_append _ _).isInfix

namespace Generator

open Protogen Utcp

/-- C13 as stated fails: a comment that cites a URL is returned as it is, with the `//`
of the URL in it. -/
theorem extractComment_marker_counterexample :
    extractComment "See https://example.com/docs" = "See https://example.com/docs" ∧
      "//".data <:+: (extractComment "See https://example.com/docs").data := by
  refine ⟨by decide, ?_⟩
  exact ⟨"See https:".data, "example.com/docs".data, by decide⟩

/-- C13, amended. A marker `//`, `/*` or `*/` occurs in the output of `extractComment`
if and only if it occurs in a line of the text after the cleaning, which removes one
leading `//`, one leading `/*` and one trailing `*/` of the trimmed line and nothing else:
a marker elsewhere in a line stays in the output, and joining the lines creates none. -/
theorem extractComment_marker_iff (text marker : String)
    (hm : marker ∈ ["//", "/*", "*/"]) :
    marker.data <:+: (extractComment text).data ↔
      ∃ line ∈ Strings.Split text '\n', marker.data <:+: (cleanLine line).data := by
  have hsp : ' ' ∉ marker.data ∧ marker.data ≠ [] := by
    simp only [List.mem_cons, List.mem_singleton, List.not_mem_nil, or_false] at hm
    rcases hm with rfl | rfl | rfl <;> exact ⟨by decide, by decide⟩
  rw [extractComment_data]
  constructor
  · intro h
    obtain ⟨l, hl, hml⟩ := List.infix_of_infix_intercalate _ ' ' _ hsp.1 hsp.2 h
    obtain ⟨e, he, rfl⟩ := List.mem_map.1 hl
    obtain ⟨_, line, hline, rfl, _⟩ := mem_cleanedLines text e he
    exact ⟨line, hline, hml⟩
  · rintro ⟨line, hline, hml⟩
    have hne : cleanLine line ≠ "" := by
      intro hc
      rw [hc] at hml
      have : marker.data = [] := List.eq_nil_of_infix_nil hml
      exact hsp.2 this
    have hmem : (cleanLine line).data ∈
        (((Strings.Split text '\n').map cleanLine).filter (fun line => line ≠ "")).map
          String.data := by
      apply List.mem_map.2
      refine ⟨cleanLine line, List.mem_filter.2 ⟨List.mem_map.2 ⟨line, hline, rfl⟩, ?_⟩, rfl⟩
      simpa using hne
    exact List.IsInfix.trans hml (List.infix_intercalate_of_mem _ _ _ hmem)

/-- C13, amended, both ways. The second line of a comment cites a URL: the cleaned line
holds `//`, so the output does. The comment `// note` has its leading marker removed and
no other: the output holds no `//`, so no cleaned line does. -/
theorem extractComment_marker_iff_witness :
    "//".data <:+: (extractComment "Docs:\n  see https://example.com/docs").data ∧
    extractComment "Docs:\n  see https://example.com/docs" =
      "Docs: see https://example.com/docs" ∧
    extractComment "// note" = "note" ∧
    ¬ ∃ line ∈ Strings.Split "// note" '\n', "//".data <:+: (cleanLine line).data :=
  ⟨(extractComment_marker_iff "Docs:\n  see https://example.com/docs" "//" (by decide)).2
      ⟨"  see https://example.com/docs", by decide,
        ⟨"see https:".data, "example.com/docs".data, by decide⟩⟩,
    by decide, by decide,
    fun h => absurd ((extractComment_marker_iff "// note" "//" (by decide)).2 h)
      (by decide)⟩

end Generator

/-! ## The descriptor graph: where the schema converter returns -/

/-- A loop that stops at the first call that does not return finishes only when every call
in it returns, each from some state of the loop. -/
theorem List.foldl_option_returns {α β : Type} (f : Option β → α → Option β)
    (hnone : ∀ x, f none x = none) (l : List α) (init : Option β) (result : β)
    (h : l.foldl f init = some result) :
    ∀ x ∈ l, ∃ b b', f (some b) x = some b' := by
  have hstuck : ∀ l : List α, l.foldl f none = none := by
    intro l
    induction l with
    | nil => rfl
    | cons a l ih => rw [List.foldl_cons, hnone]; exact ih
  induction l generalizing init with
  | nil => simp
  | cons a l ih =>
    rw [List.foldl_cons] at h
    intro x hx
    rcases List.mem_cons.1 hx with rfl | hx
    · cases init with
      | none =>
        rw [hnone, hstuck] at h
        exact absurd h (by simp)
      | some b =>
        cases hs : f (some b) x with
        | some b' => exact ⟨b, b', hs⟩
        | none =>
          rw [hs, hstuck] at h
          exact absurd h (by simp)
    · exact ih _ h x hx

namespace Generator

open Protogen Utcp

/-- The body of `messageFieldToPropertyOnGraph` when a call is allowed. -/
theorem messageFieldToPropertyOnGraph_succ (graph : Graph) (fuel : Nat) (field : FieldRef) :
    messageFieldToPropertyOnGraph graph (fuel + 1) field =
      if field.isList = true then
        some (.mk "array" (extractComment field.leading) none
          (some (.mk (protoTypeToJSONType field.kind) none (extractComment field.leading)))
          none)
      else if field.isMap = true then
        some (.mk "object" (extractComment field.leading) none none none)
      else if field.kind = Protoreflect.MessageKind ∧ field.message.isSome = true then
        (nestedPropertiesOnGraph (messageFieldToPropertyOnGraph graph fuel)
            (graph.fields (field.message.getD 0)) []).map
          (fun properties =>
            .mk "object" (extractComment field.leading)
              (if field.kind = Protoreflect.EnumKind then
                field.enum.map (fun e => e.values.map EnumValue.name)
               else none)
              none (some properties))
      else
        some (.mk (protoTypeToJSONType field.kind) (extractComment field.leading)
          (if field.kind = Protoreflect.EnumKind then
            field.enum.map (fun e => e.values.map EnumValue.name)
           else none)
          none none) := by
  obtain ⟨j, k, c, m, l, e, msg⟩ := field
  unfold messageFieldToPropertyOnGraph
  simp only
  split
  · rfl
  · split
    · rfl
    · cases msg <;> cases e <;> simp [enumLoop_eq_map]

/-- A tree that stands for a field of the graph has the readings of the field. -/
theorem representsField_readings (graph : Graph) (ref : FieldRef) (f : Protogen.Field)
    (h : graph.representsField ref f = true) :
    ref.jsonName = f.jsonName ∧ ref.kind = f.kind ∧ ref.cardinality = f.cardinality ∧
      ref.isMap = f.isMap ∧ ref.leading = f.leading ∧ ref.enum = f.enum ∧
      ref.isList = f.isList := by
  cases f with
  | mk j k c m l e msg =>
    unfold Graph.representsField at h
    simp only [Bool.and_eq_true, decide_eq_true_eq] at h
    obtain ⟨⟨⟨⟨⟨⟨h1, h2⟩, h3⟩, h4⟩, h5⟩, h6⟩, _⟩ := h
    refine ⟨h1, h2, h3, h4, h5, h6, ?_⟩
    simp [FieldRef.isList, Field.isList, Field.cardinality, Field.isMap, h3, h4]

/-- A represented field of message kind points at a represented message. -/
theorem representsField_message (graph : Graph) (ref : FieldRef) (f : Protogen.Field)
    (h : graph.representsField ref f = true) (hl : ¬ ref.isList = true)
    (hm : ¬ ref.isMap = true) (hk : ref.kind = Protoreflect.MessageKind) :
    (ref.message = none ∧ f.message = none) ∨
      ∃ target fields, ref.message = some target ∧ f.message = some (.mk fields) ∧
        graph.representsFields (graph.fields target) fields = true := by
  cases f with
  | mk j k c m l e msg =>
    unfold Graph.representsField at h
    simp only [Bool.and_eq_true, Bool.or_eq_true] at h
    rcases h.2 with ((hc | hc) | hc) | hc
    · exact absurd hc hl
    · exact absurd hc hm
    · simp [hk] at hc
    · rcases hr : ref.message with _ | target <;> rcases msg with _ | ⟨⟨fields⟩⟩ <;>
        simp only [hr] at hc <;> simp_all [Field.message]

/-- One call of `messageFieldToPropertyOnGraph` agrees with the tree embedding when the
nested call, if the code makes one, does. -/
theorem messageFieldToPropertyOnGraph_step (graph : Graph) (f : Protogen.Field)
    (ref : FieldRef) (h : graph.representsField ref f = true) (fuel : Nat)
    (hnested : ∀ target fields, ref.message = some target → f.message = some (.mk fields) →
      graph.representsFields (graph.fields target) fields = true →
      nestedPropertiesOnGraph (messageFieldToPropertyOnGraph graph fuel)
        (graph.fields target) [] = some (nestedProperties fields [])) :
    messageFieldToPropertyOnGraph graph (fuel + 1) ref = some (messageFieldToProperty f) := by
  obtain ⟨_, h2, _, h4, h5, h6, h7⟩ := representsField_readings graph ref _ h
  rw [messageFieldToPropertyOnGraph_succ, messageFieldToProperty_eq, ← h2, ← h4, ← h5, ← h6,
    ← h7]
  by_cases hl : ref.isList = true
  · simp only [hl, if_true]
  · by_cases hm : ref.isMap = true
    · simp only [hl, hm, if_true, if_false]
      simp
    · by_cases hk : ref.kind = Protoreflect.MessageKind
      · rcases representsField_message graph ref f h hl hm hk with
          ⟨hr, hf⟩ | ⟨target, fields, hr, hf, hrep⟩
        · simp [hl, hm, hk, hr, hf]
        · simp [hl, hm, hk, hr, hf, Message.fields, hnested target fields hr hf hrep]
      · simp [hl, hm, hk]

mutual
/-- On a graph whose nesting is finite the two embeddings of `messageFieldToProperty`
agree: with enough fuel the call on the graph returns the property of the tree. -/
theorem messageFieldToPropertyOnGraph_of_represents (graph : Graph) (f : Protogen.Field)
    (ref : FieldRef) (h : graph.representsField ref f = true) :
    ∃ n, ∀ fuel, n ≤ fuel →
      messageFieldToPropertyOnGraph graph fuel ref = some (messageFieldToProperty f) := by
  match f, h with
  | .mk j k c m l e none, h =>
    refine ⟨1, fun fuel hf => ?_⟩
    obtain ⟨fuel', rfl⟩ : ∃ fuel', fuel = fuel' + 1 := ⟨fuel - 1, by omega⟩
    exact messageFieldToPropertyOnGraph_step graph _ ref h fuel'
      (fun target fields _ hf _ => by simp [Field.message] at hf)
  | .mk j k c m l e (some (.mk fields)), h =>
    by_cases hrep : ∃ target, ref.message = some target ∧
        graph.representsFields (graph.fields target) fields = true
    · obtain ⟨target, hr, hrep⟩ := hrep
      obtain ⟨n, hn⟩ := nestedPropertiesOnGraph_of_represents graph fields
        (graph.fields target) hrep
      refine ⟨n + 1, fun fuel hf => ?_⟩
      obtain ⟨fuel', rfl⟩ : ∃ fuel', fuel = fuel' + 1 := ⟨fuel - 1, by omega⟩
      refine messageFieldToPropertyOnGraph_step graph _ ref h fuel' ?_
      intro target' fields' hr' hf' _
      simp only [Field.message, Option.some.injEq, Message.mk.injEq] at hf'
      subst hf'
      rw [hr] at hr'
      cases hr'
      exact hn fuel' (by omega) []
    · refine ⟨1, fun fuel hf => ?_⟩
      obtain ⟨fuel', rfl⟩ : ∃ fuel', fuel = fuel' + 1 := ⟨fuel - 1, by omega⟩
      refine messageFieldToPropertyOnGraph_step graph _ ref h fuel' ?_
      intro target' fields' hr' hf' hrep'
      simp only [Field.message, Option.some.injEq, Message.mk.injEq] at hf'
      subst hf'
      exact absurd ⟨target', hr', hrep'⟩ hrep
theorem nestedPropertiesOnGraph_of_represents (graph : Graph) (fs : List Protogen.Field)
    (refs : List FieldRef) (h : graph.representsFields refs fs = true) :
    ∃ n, ∀ fuel, n ≤ fuel → ∀ acc,
      nestedPropertiesOnGraph (messageFieldToPropertyOnGraph graph fuel) refs acc =
        some (nestedProperties fs acc) := by
  match fs, refs, h with
  | [], [], _ => exact ⟨0, fun _ _ acc => by simp [nestedPropertiesOnGraph, nestedProperties]⟩
  | f :: fs, ref :: refs, h =>
    unfold Graph.representsFields at h
    simp only [Bool.and_eq_true] at h
    obtain ⟨n1, hn1⟩ := messageFieldToPropertyOnGraph_of_represents graph f ref h.1
    obtain ⟨n2, hn2⟩ := nestedPropertiesOnGraph_of_represents graph fs refs h.2
    refine ⟨max n1 n2, fun fuel hf acc => ?_⟩
    have hj := (representsField_readings graph ref f h.1).1
    rw [nestedPropertiesOnGraph, hn1 fuel (by omega), nestedProperties]
    simp only
    rw [hn2 fuel (by omega), hj]
end


/-- The fields of a represented list have the JSON names of the trees. -/
theorem representsFields_jsonName (graph : Graph) (refs : List FieldRef)
    (fs : List Protogen.Field) (h : graph.representsFields refs fs = true) :
    refs.map FieldRef.jsonName = fs.map Field.jsonName := by
  induction refs generalizing fs with
  | nil =>
    cases fs with
    | nil => rfl
    | cons f fs => simp [Graph.representsFields] at h
  | cons ref refs ih =>
    cases fs with
    | nil => simp [Graph.representsFields] at h
    | cons f fs =>
      unfold Graph.representsFields at h
      simp only [Bool.and_eq_true] at h
      simp [(representsField_readings graph ref f h.1).1, ih fs h.2]

/-- The required fields of a represented list have the JSON names of the required trees. -/
theorem representsFields_required (graph : Graph) (refs : List FieldRef)
    (fs : List Protogen.Field) (h : graph.representsFields refs fs = true) :
    (refs.filter (fun f => decide (f.cardinality = Protoreflect.Required))).map
        FieldRef.jsonName =
      (fs.filter (fun f => decide (f.cardinality = Protoreflect.Required))).map
        Field.jsonName := by
  induction refs generalizing fs with
  | nil =>
    cases fs with
    | nil => rfl
    | cons f fs => simp [Graph.representsFields] at h
  | cons ref refs ih =>
    cases fs with
    | nil => simp [Graph.representsFields] at h
    | cons f fs =>
      unfold Graph.representsFields at h
      simp only [Bool.and_eq_true] at h
      obtain ⟨h1, _, h3, _⟩ := representsField_readings graph ref f h.1
      simp only [List.filter_cons, h3]
      split <;> simp [h1, ih fs h.2]

/-- A represented list is empty exactly when the list of trees is. -/
theorem representsFields_nil (graph : Graph) (refs : List FieldRef)
    (fs : List Protogen.Field) (h : graph.representsFields refs fs = true) :
    refs = [] ↔ fs = [] := by
  cases refs <;> cases fs <;> simp [Graph.representsFields] at h ⊢

/-- The loop of `generateInputSchema` on a graph whose nesting is finite, with enough
fuel, is the loop on the trees. -/
theorem generateInputSchemaOnGraph_loop (graph : Graph) (refs : List FieldRef)
    (fs : List Protogen.Field) (h : graph.representsFields refs fs = true) :
    ∃ n, ∀ fuel, n ≤ fuel → ∀ schema : InputSchema,
      refs.foldl
        (fun (acc : Option InputSchema) field =>
          match acc with
          | none => none
          | some schema =>
            match messageFieldToPropertyOnGraph graph fuel field with
            | none => none
            | some prop => some (generateInputSchemaStep schema field prop))
        (some schema) =
      some (fs.foldl
        (fun (schema : InputSchema) (field : Protogen.Field) =>
          let prop := messageFieldToProperty field
          let schema : InputSchema :=
            { schema with
              properties := some (GoMap.assign (schema.properties.getD []) field.jsonName prop) }
          if field.cardinality = Protoreflect.Required then
            { schema with required := schema.required ++ [field.jsonName] }
          else schema)
        schema) := by
  induction refs generalizing fs with
  | nil =>
    cases fs with
    | nil => exact ⟨0, fun _ _ _ => rfl⟩
    | cons f fs => simp [Graph.representsFields] at h
  | cons ref refs ih =>
    cases fs with
    | nil => simp [Graph.representsFields] at h
    | cons f fs =>
      unfold Graph.representsFields at h
      simp only [Bool.and_eq_true] at h
      obtain ⟨n1, hn1⟩ := messageFieldToPropertyOnGraph_of_represents graph f ref h.1
      obtain ⟨n2, hn2⟩ := ih fs h.2
      obtain ⟨h1, _, h3, _⟩ := representsField_readings graph ref f h.1
      refine ⟨max n1 n2, fun fuel hf schema => ?_⟩
      simp only [List.foldl_cons, hn1 fuel (by omega)]
      rw [hn2 fuel (by omega)]
      simp only [generateInputSchemaStep, h1, h3]

/-- On a message whose nesting is finite `generateInputSchema` returns, with enough fuel,
the schema of the tree. -/
theorem generateInputSchemaOnGraph_of_represents (graph : Graph) (message : Nat)
    (tree : Protogen.Message) (h : graph.representsMessage message tree = true) :
    ∃ n, ∀ fuel, n ≤ fuel →
      generateInputSchemaOnGraph graph fuel message = some (generateInputSchema tree) := by
  obtain ⟨n, hn⟩ := generateInputSchemaOnGraph_loop graph _ _ h
  exact ⟨n, fun fuel hf => hn fuel hf _⟩

/-- The loop of `generateOutputSchema` on a graph whose nesting is finite, with enough
fuel, is the loop on the trees. -/
theorem generateOutputSchemaOnGraph_loop (graph : Graph) (refs : List FieldRef)
    (fs : List Protogen.Field) (h : graph.representsFields refs fs = true) :
    ∃ n, ∀ fuel, n ≤ fuel → ∀ schema : OutputSchema,
      refs.foldl
        (fun (acc : Option OutputSchema) field =>
          match acc with
          | none => none
          | some schema =>
            match messageFieldToPropertyOnGraph graph fuel field with
            | none => none
            | some prop =>
              some
                { schema with
                  properties :=
                    some (GoMap.assign (schema.properties.getD []) field.jsonName prop) })
        (some schema) =
      some (fs.foldl
        (fun (schema : OutputSchema) (field : Protogen.Field) =>
          let prop := messageFieldToProperty field
          { schema with
            properties := some (GoMap.assign (schema.properties.getD []) field.jsonName prop) })
        schema) := by
  induction refs generalizing fs with
  | nil =>
    cases fs with
    | nil => exact ⟨0, fun _ _ _ => rfl⟩
    | cons f fs => simp [Graph.representsFields] at h
  | cons ref refs ih =>
    cases fs with
    | nil => simp [Graph.representsFields] at h
    | cons f fs =>
      unfold Graph.representsFields at h
      simp only [Bool.and_eq_true] at h
      obtain ⟨n1, hn1⟩ := messageFieldToPropertyOnGraph_of_represents graph f ref h.1
      obtain ⟨n2, hn2⟩ := ih fs h.2
      obtain ⟨h1, _, h3, _⟩ := representsField_readings graph ref f h.1
      refine ⟨max n1 n2, fun fuel hf schema => ?_⟩
      simp only [List.foldl_cons, hn1 fuel (by omega)]
      rw [hn2 fuel (by omega)]
      simp only [h1]

/-- On a message whose nesting is finite `generateOutputSchema` returns, with enough fuel,
the schema of the tree. -/
theorem generateOutputSchemaOnGraph_of_represents (graph : Graph) (message : Nat)
    (tree : Protogen.Message) (h : graph.representsMessage message tree = true) :
    ∃ n, ∀ fuel, n ≤ fuel →
      generateOutputSchemaOnGraph graph fuel message = some (generateOutputSchema tree) := by
  obtain ⟨n, hn⟩ := generateOutputSchemaOnGraph_loop graph _ _ h
  exact ⟨n, fun fuel hf => hn fuel hf _⟩


/-- On the graph of `message Node { Node next = 1; }` the conversion of the field `next`
returns within no number of nested calls. -/
theorem messageFieldToPropertyOnGraph_nodeGraph (fuel : Nat) :
    messageFieldToPropertyOnGraph nodeGraph fuel
      ⟨"next", Protoreflect.MessageKind, Protoreflect.Optional, false, "", none, some 0⟩ =
      none := by
  induction fuel with
  | zero => rfl
  | succ fuel ih =>
    rw [messageFieldToPropertyOnGraph_succ]
    have hl : (⟨"next", Protoreflect.MessageKind, Protoreflect.Optional, false, "", none,
        some 0⟩ : FieldRef).isList = false := by decide
    rw [if_neg (by rw [hl]; decide), if_neg (by decide), if_pos ⟨rfl, rfl⟩]
    simp only [Option.getD_some, nodeGraph, nestedPropertiesOnGraph]
    simp only [nodeGraph] at ih
    rw [ih]
    rfl

/-- On the graph of `message Node { Node next = 1; }` the call of `generateInputSchema` on
`Node` returns within no number of nested calls. -/
theorem generateInputSchemaOnGraph_nodeGraph (fuel : Nat) :
    generateInputSchemaOnGraph nodeGraph fuel 0 = none := by
  have h := messageFieldToPropertyOnGraph_nodeGraph fuel
  simp only [nodeGraph] at h
  simp only [generateInputSchemaOnGraph, nodeGraph, List.foldl_cons, List.foldl_nil, h]

/-- The call of `generateTool` on a method whose request and response messages have finite
nesting returns, with enough fuel, a tool named after the method. -/
theorem generateToolOnGraph_returns (graph : Graph) (caseTable : Char → Char)
    (service : ServiceRef) (method : MethodRef) (file : FileRef)
    (hfin : ∀ target, method.input = some target ∨ method.output = some target →
      ∃ tree, graph.representsMessage target tree = true) :
    ∃ (n : Nat) (g : Config → Tool × Config), ∀ fuel, n ≤ fuel → ∀ config,
      generateToolOnGraph graph caseTable fuel service method file config = some (g config) ∧
        (g config).1.name = toSnakeCase caseTable method.name := by
  have hin : ∃ (n : Nat) (inputs : InputSchema), ∀ fuel, n ≤ fuel →
      (match method.input with
        | some message => generateInputSchemaOnGraph graph fuel message
        | none => some { type := "object", properties := some [], required := [] }) =
        some inputs := by
    cases hi : method.input with
    | none => exact ⟨0, _, fun _ _ => rfl⟩
    | some target =>
      obtain ⟨tree, ht⟩ := hfin target (Or.inl hi)
      obtain ⟨n, hn⟩ := generateInputSchemaOnGraph_of_represents graph target tree ht
      exact ⟨n, _, hn⟩
  have hout : ∃ (n : Nat) (outputs : Option OutputSchema), ∀ fuel, n ≤ fuel →
      (match method.output with
        | some message => (generateOutputSchemaOnGraph graph fuel message).map some
        | none => some none) = some outputs := by
    cases ho : method.output with
    | none => exact ⟨0, _, fun _ _ => rfl⟩
    | some target =>
      obtain ⟨tree, ht⟩ := hfin target (Or.inr ho)
      obtain ⟨n, hn⟩ := generateOutputSchemaOnGraph_of_represents graph target tree ht
      exact ⟨n, some (generateOutputSchema tree), fun fuel hf => by simp [hn fuel hf]⟩
  obtain ⟨n1, inputs, h1⟩ := hin
  obtain ⟨n2, outputs, h2⟩ := hout
  refine ⟨max n1 n2, fun config =>
    ({ name := toSnakeCase caseTable method.name,
       description :=
         if extractComment method.leading = "" then
           method.name ++ " method in " ++ service.name ++ " service"
         else extractComment method.leading,
       inputs := inputs, outputs := outputs,
       toolProvider := some (generateToolProvider service.descriptor method.descriptor
         file.descriptor config).1 },
     (generateToolProvider service.descriptor method.descriptor file.descriptor config).2),
    fun fuel hf config => ⟨?_, rfl⟩⟩
  have e1 := h1 fuel (by omega)
  have e2 := h2 fuel (by omega)
  unfold generateToolOnGraph
  cases hi : method.input <;> cases ho : method.output <;> simp only [hi, ho] at e1 e2 ⊢
  · cases e1
    cases e2
    rfl
  · cases e1
    rw [e2]
  · cases e2
    rw [e1]
  · rw [e1, e2]

/-- The loop of `generateServiceTools` over methods whose messages have finite nesting
returns, with enough fuel, one tool for each method, named after it, in order. -/
theorem generateServiceToolsOnGraph_loop (graph : Graph) (caseTable : Char → Char)
    (service : ServiceRef) (file : FileRef) (methods : List MethodRef)
    (hfin : ∀ method ∈ methods, ∀ target,
      method.input = some target ∨ method.output = some target →
      ∃ tree, graph.representsMessage target tree = true) :
    ∃ (n : Nat) (g : List Tool × Config → List Tool × Config), ∀ fuel, n ≤ fuel → ∀ acc,
      methods.foldl
        (fun (acc : Option (List Tool × Config)) method =>
          match acc with
          | none => none
          | some acc =>
            match generateToolOnGraph graph caseTable fuel service method file acc.2 with
            | none => none
            | some r => some (acc.1 ++ [r.1], r.2))
        (some acc) = some (g acc) ∧
      (g acc).1.map Tool.name =
        acc.1.map Tool.name ++ methods.map (fun m => toSnakeCase caseTable m.name) := by
  induction methods with
  | nil => exact ⟨0, id, fun _ _ acc => ⟨rfl, by simp⟩⟩
  | cons m ms ih =>
    obtain ⟨n1, g1, h1⟩ := generateToolOnGraph_returns graph caseTable service m file
      (hfin m (List.mem_cons_self _ _))
    obtain ⟨n2, g2, h2⟩ := ih (fun m' hm' => hfin m' (List.mem_cons_of_mem _ hm'))
    refine ⟨max n1 n2, fun acc => g2 (acc.1 ++ [(g1 acc.2).1], (g1 acc.2).2),
      fun fuel hf acc => ?_⟩
    obtain ⟨e1, e2⟩ := h1 fuel (by omega) acc.2
    obtain ⟨e3, e4⟩ := h2 fuel (by omega) (acc.1 ++ [(g1 acc.2).1], (g1 acc.2).2)
    simp only [List.foldl_cons, e1]
    refine ⟨e3, ?_⟩
    rw [e4]
    simp [e2]

/-- The call of `generateServiceTools` on a service whose messages have finite nesting. -/
theorem generateServiceToolsOnGraph_returns (graph : Graph) (caseTable : Char → Char)
    (service : ServiceRef) (file : FileRef)
    (hfin : ∀ method ∈ service.methods, ∀ target,
      method.input = some target ∨ method.output = some target →
      ∃ tree, graph.representsMessage target tree = true) :
    ∃ (n : Nat) (g : Config → List Tool × Config), ∀ fuel, n ≤ fuel → ∀ config,
      generateServiceToolsOnGraph graph caseTable fuel service file config =
        some (g config) ∧
      (g config).1.map Tool.name =
        service.methods.map (fun m => toSnakeCase caseTable m.name) := by
  obtain ⟨n, g, h⟩ := generateServiceToolsOnGraph_loop graph caseTable service file
    service.methods hfin
  refine ⟨n, fun config => g ([], config), fun fuel hf config => ?_⟩
  obtain ⟨e1, e2⟩ := h fuel hf ([], config)
  exact ⟨e1, by simpa using e2⟩

/-- The loop of `GenerateFile` over services whose messages have finite nesting. -/
theorem GenerateFileOnGraph_loop (graph : Graph) (caseTable : Char → Char)
    (file : FileRef) (services : List ServiceRef)
    (hfin : ∀ service ∈ services, ∀ method ∈ service.methods, ∀ target,
      method.input = some target ∨ method.output = some target →
      ∃ tree, graph.representsMessage target tree = true) :
    ∃ (n : Nat) (g : List Tool × Config → List Tool × Config), ∀ fuel, n ≤ fuel → ∀ acc,
      services.foldl
        (fun (acc : Option (List Tool × Config)) service =>
          match acc with
          | none => none
          | some acc =>
            match generateServiceToolsOnGraph graph caseTable fuel service file acc.2 with
            | none => none
            | some serviceTools => some (acc.1 ++ serviceTools.1, serviceTools.2))
        (some acc) = some (g acc) ∧
      (g acc).1.map Tool.name =
        acc.1.map Tool.name ++
          (services.map
            (fun s => s.methods.map (fun m => toSnakeCase caseTable m.name))).flatten := by
  induction services with
  | nil => exact ⟨0, id, fun _ _ acc => ⟨rfl, by simp⟩⟩
  | cons s ss ih =>
    obtain ⟨n1, g1, h1⟩ := generateServiceToolsOnGraph_returns graph caseTable s file
      (hfin s (List.mem_cons_self _ _))
    obtain ⟨n2, g2, h2⟩ := ih (fun s' hs' => hfin s' (List.mem_cons_of_mem _ hs'))
    refine ⟨max n1 n2, fun acc => g2 (acc.1 ++ (g1 acc.2).1, (g1 acc.2).2),
      fun fuel hf acc => ?_⟩
    obtain ⟨e1, e2⟩ := h1 fuel (by omega) acc.2
    obtain ⟨e3, e4⟩ := h2 fuel (by omega) (acc.1 ++ (g1 acc.2).1, (g1 acc.2).2)
    simp only [List.foldl_cons, e1]
    refine ⟨e3, ?_⟩
    rw [e4]
    simp [e2]

/-- The call of `GenerateFile` on a file with a service whose messages have finite
nesting returns, with enough fuel, a tool collection with the tools named after the
methods, in order. -/
theorem GenerateFileOnGraph_names (graph : Graph) (caseTable : Char → Char)
    (file : FileRef) (config : Config) (h : file.services ≠ [])
    (hfin : ∀ service ∈ file.services, ∀ method ∈ service.methods, ∀ target,
      method.input = some target ∨ method.output = some target →
      ∃ tree, graph.representsMessage target tree = true) :
    ∃ tools config',
      (∃ n, ∀ fuel, n ≤ fuel →
        GenerateFileOnGraph graph caseTable fuel file config = some (some tools, config')) ∧
      tools.tools.map Tool.name =
        (file.services.map
          (fun s => s.methods.map (fun m => toSnakeCase caseTable m.name))).flatten := by
  obtain ⟨n, g, hg⟩ := GenerateFileOnGraph_loop graph caseTable file file.services hfin
  have h0 : ¬ file.services.length = 0 := by
    simpa [List.length_eq_zero] using h
  refine ⟨{ tools := (g ([], config)).1 }, (g ([], config)).2, ⟨n, fun fuel hf => ?_⟩, ?_⟩
  · have e := (hg fuel hf ([], config)).1
    unfold GenerateFileOnGraph
    rw [if_neg h0]
    exact congrArg
      (Option.map (fun r : List Tool × Config => ((some { tools := r.1 } : Option ToolCollection), r.2))) e
  · simpa using (hg n (Nat.le_refl n) ([], config)).2

/-- On the graph of `message Node { Node next = 1; }` the call of `GenerateFile` on a file
with a method that takes `Node` returns within no number of nested calls. -/
theorem GenerateFileOnGraph_nodeGraph (fuel : Nat) (config : Config) :
    GenerateFileOnGraph nodeGraph id fuel nodeFile config = none := by
  have h := generateInputSchemaOnGraph_nodeGraph fuel
  simp only [GenerateFileOnGraph, nodeFile, generateServiceToolsOnGraph, generateToolOnGraph,
    List.foldl_cons, List.foldl_nil, h]
  rfl


/-- The loop of nested fields finishes only when every call in it returns. -/
theorem nestedPropertiesOnGraph_some (convert : FieldRef → Option Property)
    (refs : List FieldRef) (acc result : List (String × Property))
    (h : nestedPropertiesOnGraph convert refs acc = some result) :
    ∀ ref ∈ refs, ∃ p, convert ref = some p := by
  induction refs generalizing acc with
  | nil => simp
  | cons ref refs ih =>
    rw [nestedPropertiesOnGraph] at h
    cases hc : convert ref with
    | none => simp [hc] at h
    | some p =>
      simp only [hc] at h
      intro ref' hr
      rcases List.mem_cons.1 hr with rfl | hr
      · exact ⟨p, hc⟩
      · exact ih _ h ref' hr

/-- Fields that each have a tree have trees as a list. -/
theorem representsFields_of_forall (graph : Graph) (refs : List FieldRef)
    (h : ∀ ref ∈ refs, ∃ f, graph.representsField ref f = true) :
    ∃ fs, graph.representsFields refs fs = true := by
  induction refs with
  | nil => exact ⟨[], rfl⟩
  | cons ref refs ih =>
    obtain ⟨f, hf⟩ := h ref (List.mem_cons_self _ _)
    obtain ⟨fs, hfs⟩ := ih (fun r hr => h r (List.mem_cons_of_mem _ hr))
    refine ⟨f :: fs, ?_⟩
    unfold Graph.representsFields
    rw [hf, hfs]
    rfl

/-- A field on which `messageFieldToProperty` returns has finite nesting: a tree stands
for it. -/
theorem representsField_of_returns (graph : Graph) (fuel : Nat) (ref : FieldRef)
    (p : Property) (h : messageFieldToPropertyOnGraph graph fuel ref = some p) :
    ∃ f, graph.representsField ref f = true := by
  induction fuel generalizing ref p with
  | zero => simp [messageFieldToPropertyOnGraph] at h
  | succ fuel ih =>
    by_cases hcase : ref.isList = false ∧ ref.isMap = false ∧
        ref.kind = Protoreflect.MessageKind ∧ ref.message.isSome = true
    · obtain ⟨hl, hm, hk, hs⟩ := hcase
      obtain ⟨target, ht⟩ := Option.isSome_iff_exists.1 hs
      rw [messageFieldToPropertyOnGraph_succ] at h
      simp only [hl, hm, hk, hs, ht, Bool.false_eq_true, if_false, and_self, if_true,
        Option.getD_some] at h
      cases hn : nestedPropertiesOnGraph (messageFieldToPropertyOnGraph graph fuel)
          (graph.fields target) [] with
      | none => simp [hn] at h
      | some props =>
        obtain ⟨fs, hfs⟩ := representsFields_of_forall graph (graph.fields target)
          (fun r hr => by
            obtain ⟨q, hq⟩ := nestedPropertiesOnGraph_some _ _ _ _ hn r hr
            exact ih r q hq)
        refine ⟨.mk ref.jsonName ref.kind ref.cardinality ref.isMap ref.leading ref.enum
          (some (.mk fs)), ?_⟩
        unfold Graph.representsField
        simp [ht, hfs]
    · refine ⟨.mk ref.jsonName ref.kind ref.cardinality ref.isMap ref.leading ref.enum none, ?_⟩
      unfold Graph.representsField
      simp only [decide_True, Bool.true_and, Bool.or_eq_true, Bool.not_eq_true',
        decide_eq_false_iff_not]
      by_cases hl : ref.isList = true
      · exact Or.inl (Or.inl (Or.inl hl))
      · by_cases hm : ref.isMap = true
        · exact Or.inl (Or.inl (Or.inr hm))
        · by_cases hk : ref.kind = Protoreflect.MessageKind
          · right
            cases hmsg : ref.message with
            | none => rfl
            | some target =>
              exact absurd ⟨by simpa using hl, by simpa using hm, hk, by simp [hmsg]⟩ hcase
          · exact Or.inl (Or.inr hk)


/-- A message on which `generateInputSchema` returns has finite nesting. -/
theorem representsMessage_of_generateInputSchema (graph : Graph) (fuel message : Nat)
    (schema : InputSchema)
    (h : generateInputSchemaOnGraph graph fuel message = some schema) :
    ∃ tree, graph.representsMessage message tree = true := by
  unfold generateInputSchemaOnGraph at h
  have hall := List.foldl_option_returns _ (fun _ => rfl) _ _ schema h
  obtain ⟨fs, hfs⟩ := representsFields_of_forall graph (graph.fields message)
    (fun ref hr => by
      obtain ⟨b, b', hb⟩ := hall ref hr
      simp only at hb
      cases hc : messageFieldToPropertyOnGraph graph fuel ref with
      | none => simp [hc] at hb
      | some p => exact representsField_of_returns graph fuel ref p hc)
  exact ⟨.mk fs, hfs⟩

/-- A message on which `generateOutputSchema` returns has finite nesting. -/
theorem representsMessage_of_generateOutputSchema (graph : Graph) (fuel message : Nat)
    (schema : OutputSchema)
    (h : generateOutputSchemaOnGraph graph fuel message = some schema) :
    ∃ tree, graph.representsMessage message tree = true := by
  unfold generateOutputSchemaOnGraph at h
  have hall := List.foldl_option_returns _ (fun _ => rfl) _ _ schema h
  obtain ⟨fs, hfs⟩ := representsFields_of_forall graph (graph.fields message)
    (fun ref hr => by
      obtain ⟨b, b', hb⟩ := hall ref hr
      simp only at hb
      cases hc : messageFieldToPropertyOnGraph graph fuel ref with
      | none => simp [hc] at hb
      | some p => exact representsField_of_returns graph fuel ref p hc)
  exact ⟨.mk fs, hfs⟩

/-- The request and response messages of a method on which `generateTool` returns have
finite nesting. -/
theorem representsMessage_of_generateTool (graph : Graph) (caseTable : Char → Char)
    (fuel : Nat) (service : ServiceRef) (method : MethodRef) (file : FileRef)
    (config : Config) (r : Tool × Config)
    (h : generateToolOnGraph graph caseTable fuel service method file config = some r) :
    ∀ target, method.input = some target ∨ method.output = some target →
      ∃ tree, graph.representsMessage target tree = true := by
  intro target ht
  unfold generateToolOnGraph at h
  rcases ht with ht | ht
  · cases hi : generateInputSchemaOnGraph graph fuel target with
    | none => simp [ht, hi] at h
    | some schema => exact representsMessage_of_generateInputSchema graph fuel target schema hi
  · cases ho : generateOutputSchemaOnGraph graph fuel target with
    | none =>
      simp only [ht, ho, Option.map_none'] at h
      split at h <;> simp_all
    | some schema => exact representsMessage_of_generateOutputSchema graph fuel target schema ho

/-- The messages of a service on which `generateServiceTools` returns have finite
nesting. -/
theorem representsMessage_of_generateServiceTools (graph : Graph) (caseTable : Char → Char)
    (fuel : Nat) (service : ServiceRef) (file : FileRef) (config : Config)
    (r : List Tool × Config)
    (h : generateServiceToolsOnGraph graph caseTable fuel service file config = some r) :
    ∀ method ∈ service.methods, ∀ target,
      method.input = some target ∨ method.output = some target →
      ∃ tree, graph.representsMessage target tree = true := by
  unfold generateServiceToolsOnGraph at h
  have hall := List.foldl_option_returns _ (fun _ => rfl) _ _ r h
  intro method hm
  obtain ⟨b, b', hb⟩ := hall method hm
  simp only at hb
  cases hc : generateToolOnGraph graph caseTable fuel service method file b.2 with
  | none => simp [hc] at hb
  | some t => exact representsMessage_of_generateTool graph caseTable fuel service method file _ t hc

/-- The messages of a file on which `GenerateFile` returns have finite nesting. -/
theorem representsMessage_of_GenerateFile (graph : Graph) (caseTable : Char → Char)
    (fuel : Nat) (file : FileRef) (config : Config) (r : Option ToolCollection × Config)
    (h : GenerateFileOnGraph graph caseTable fuel file config = some r) :
    ∀ service ∈ file.services, ∀ method ∈ service.methods, ∀ target,
      method.input = some target ∨ method.output = some target →
      ∃ tree, graph.representsMessage target tree = true := by
  intro service hs
  unfold GenerateFileOnGraph at h
  have h0 : ¬ file.services.length = 0 := by
    intro h0
    rw [List.length_eq_zero.1 h0] at hs
    simp at hs
  rw [if_neg h0] at h
  obtain ⟨acc, hacc, _⟩ := Option.map_eq_some'.1 h
  have hall := List.foldl_option_returns _ (fun _ => rfl) _ _ acc hacc
  obtain ⟨b, b', hb⟩ := hall service hs
  simp only at hb
  cases hc : generateServiceToolsOnGraph graph caseTable fuel service file b.2 with
  | none => simp [hc] at hb
  | some t => exact representsMessage_of_generateServiceTools graph caseTable fuel service file _ t hc

/-- C5 as stated fails: on the message of `message Node { Node next = 1; }`, which
contains itself through a singular field of message kind, `generateInputSchema` returns no
schema, however many nested calls the machine allows. -/
theorem generateInputSchema_returns_counterexample :
    nodeGraph.fields 0 =
      [⟨"next", Protoreflect.MessageKind, Protoreflect.Optional, false, "", none, some 0⟩] ∧
    ¬ ∃ fuel, (generateInputSchemaOnGraph nodeGraph fuel 0).isSome = true := by
  refine ⟨rfl, ?_⟩
  rintro ⟨fuel, h⟩
  rw [generateInputSchemaOnGraph_nodeGraph] at h
  exact absurd h (by decide)

/-- C5, amended. `generateInputSchema` returns, once enough nested calls are allowed,
exactly on the messages whose nesting through singular, non-map fields of message kind is
finite (a finite tree stands for the message). On such a message it returns a schema of
type `"object"` whose `Properties` map is allocated and has exactly the fields' JSON names
as keys, and whose `Required` list is the JSON names of the fields of cardinality
`Required`, in declaration order; a message with no field gives an empty map and an empty
list. -/
theorem generateInputSchemaOnGraph_spec (graph : Graph) (message : Nat) :
    ((∃ fuel, (generateInputSchemaOnGraph graph fuel message).isSome = true) ↔
      ∃ tree, graph.representsMessage message tree = true) ∧
    ((∃ tree, graph.representsMessage message tree = true) →
      ∃ schema,
        (∃ n, ∀ fuel, n ≤ fuel →
          generateInputSchemaOnGraph graph fuel message = some schema) ∧
        schema.type = "object" ∧
        (∃ props, schema.properties = some props ∧
          ∀ k, k ∈ GoMap.keys props ↔ k ∈ (graph.fields message).map FieldRef.jsonName) ∧
        schema.required =
          ((graph.fields message).filter
            (fun f => decide (f.cardinality = Protoreflect.Required))).map
              FieldRef.jsonName ∧
        (graph.fields message = [] → schema.properties = some [] ∧ schema.required = [])) := by
  have hret : (∃ tree, graph.representsMessage message tree = true) →
      ∃ schema,
        (∃ n, ∀ fuel, n ≤ fuel →
          generateInputSchemaOnGraph graph fuel message = some schema) ∧
        schema.type = "object" ∧
        (∃ props, schema.properties = some props ∧
          ∀ k, k ∈ GoMap.keys props ↔ k ∈ (graph.fields message).map FieldRef.jsonName) ∧
        schema.required =
          ((graph.fields message).filter
            (fun f => decide (f.cardinality = Protoreflect.Required))).map
              FieldRef.jsonName ∧
        (graph.fields message = [] → schema.properties = some [] ∧ schema.required = []) := by
    rintro ⟨tree, hrep⟩
    obtain ⟨h1, ⟨props, h2, h3⟩, h4, h5⟩ := generateInputSchema_spec tree
    refine ⟨generateInputSchema tree,
      generateInputSchemaOnGraph_of_represents graph message tree hrep, h1, ⟨props, h2, ?_⟩,
      ?_, ?_⟩
    · intro k
      rw [h3, representsFields_jsonName graph _ _ hrep]
    · rw [h4, representsFields_required graph _ _ hrep]
    · intro h0
      exact h5 ((representsFields_nil graph _ _ hrep).1 h0)
  refine ⟨⟨?_, ?_⟩, hret⟩
  · rintro ⟨fuel, hsome⟩
    obtain ⟨schema, hs⟩ := Option.isSome_iff_exists.1 hsome
    exact representsMessage_of_generateInputSchema graph fuel message schema hs
  · intro hfin
    obtain ⟨schema, ⟨n, hn⟩, _⟩ := hret hfin
    exact ⟨n, by rw [hn n (Nat.le_refl n)]; rfl⟩

/-- C5, amended, at the message `Order` of `orderGraph`, whose repeated field `related`
refers back to `Order`: the tree `orderMessage` stands for it, and the schema is returned
once two nested calls are allowed, with the keys `id`, `related` and `buyer` and the one
required name `id`. -/
theorem generateInputSchemaOnGraph_spec_witness :
    orderGraph.representsMessage 0 orderMessage = true ∧
    (generateInputSchemaOnGraph orderGraph 2 0).map
        (fun schema => (schema.type, (schema.properties.getD []).map Prod.fst, schema.required)) =
      some ("object", ["id", "related", "buyer"], ["id"]) ∧
    ∃ schema,
      (∃ n, ∀ fuel, n ≤ fuel → generateInputSchemaOnGraph orderGraph fuel 0 = some schema) ∧
      schema.type = "object" ∧
      (∃ props, schema.properties = some props ∧
        ∀ k, k ∈ GoMap.keys props ↔ k ∈ (orderGraph.fields 0).map FieldRef.jsonName) ∧
      schema.required =
        ((orderGraph.fields 0).filter
          (fun f => decide (f.cardinality = Protoreflect.Required))).map FieldRef.jsonName ∧
      (orderGraph.fields 0 = [] → schema.properties = some [] ∧ schema.required = []) :=
  ⟨by decide, by decide,
    (generateInputSchemaOnGraph_spec orderGraph 0).2 ⟨orderMessage, by decide⟩⟩

/-- C15 as stated fails: the file `nodeFile` has a service, and its method takes the
message of `message Node { Node next = 1; }`; `GenerateFile` assembles no tool list for
it, however many nested calls the machine allows. -/
theorem GenerateFile_tools_in_order_counterexample :
    nodeFile.services ≠ [] ∧
    ¬ ∃ fuel,
      (GenerateFileOnGraph nodeGraph id fuel nodeFile ⟨"", "http", "bearer"⟩).isSome = true := by
  refine ⟨by simp [nodeFile], ?_⟩
  rintro ⟨fuel, h⟩
  rw [GenerateFileOnGraph_nodeGraph] at h
  exact absurd h (by decide)

/-- C15, amended. For a file with at least one service `GenerateFile` returns, once
enough nested calls are allowed, exactly when the request and response messages of its
methods all have finite nesting through singular, non-map fields of message kind. It then
assembles a tool list with one tool for each method, services in declaration order and
methods in declaration order within each: the tool names are the `toSnakeCase` images of
the method names in that order, and the length of the list is the number of methods. -/
theorem GenerateFileOnGraph_tools_in_order (graph : Graph) (caseTable : Char → Char)
    (file : FileRef) (config : Config) (h : file.services ≠ []) :
    ((∃ fuel, (GenerateFileOnGraph graph caseTable fuel file config).isSome = true) ↔
      ∀ service ∈ file.services, ∀ method ∈ service.methods, ∀ target,
        method.input = some target ∨ method.output = some target →
        ∃ tree, graph.representsMessage target tree = true) ∧
    ((∀ service ∈ file.services, ∀ method ∈ service.methods, ∀ target,
        method.input = some target ∨ method.output = some target →
        ∃ tree, graph.representsMessage target tree = true) →
      ∃ tools config',
        (∃ n, ∀ fuel, n ≤ fuel →
          GenerateFileOnGraph graph caseTable fuel file config = some (some tools, config')) ∧
        tools.tools.map Tool.name =
          (file.services.map
            (fun s => s.methods.map (fun m => toSnakeCase caseTable m.name))).flatten ∧
        tools.tools.length = (file.services.map (fun s => s.methods.length)).sum) := by
  have hret : (∀ service ∈ file.services, ∀ method ∈ service.methods, ∀ target,
        method.input = some target ∨ method.output = some target →
        ∃ tree, graph.representsMessage target tree = true) →
      ∃ tools config',
        (∃ n, ∀ fuel, n ≤ fuel →
          GenerateFileOnGraph graph caseTable fuel file config = some (some tools, config')) ∧
        tools.tools.map Tool.name =
          (file.services.map
            (fun s => s.methods.map (fun m => toSnakeCase caseTable m.name))).flatten ∧
        tools.tools.length = (file.services.map (fun s => s.methods.length)).sum := by
    intro hfin
    obtain ⟨tools, config', h1, h2⟩ :=
      GenerateFileOnGraph_names graph caseTable file config h hfin
    refine ⟨tools, config', h1, h2, ?_⟩
    have := congrArg List.length h2
    simpa [List.length_flatten, Function.comp_def] using this
  refine ⟨⟨?_, ?_⟩, hret⟩
  · rintro ⟨fuel, hsome⟩
    obtain ⟨r, hr⟩ := Option.isSome_iff_exists.1 hsome
    exact representsMessage_of_GenerateFile graph caseTable fuel file config r hr
  · intro hfin
    obtain ⟨tools, config', ⟨n, hn⟩, _⟩ := hret hfin
    exact ⟨n, by rw [hn n (Nat.le_refl n)]; rfl⟩

/-- C15, amended, at the file `orderFile` over `orderGraph`: the service `Orders` with the
methods `Place` and `GetByID`, whose messages `Order` and `Buyer` have finite nesting. -/
theorem GenerateFileOnGraph_tools_in_order_witness :
    orderFile.services ≠ [] ∧
    orderGraph.representsMessage 0 orderMessage = true ∧
    orderGraph.representsMessage 1 buyerMessage = true ∧
    ∃ tools config',
      (∃ n, ∀ fuel, n ≤ fuel →
        GenerateFileOnGraph orderGraph id fuel orderFile ⟨"", "http", "bearer"⟩ =
          some (some tools, config')) ∧
      tools.tools.map Tool.name = ["place", "get_by_id"] ∧
      tools.tools.length = 2 :=
  ⟨by simp [orderFile], by decide, by decide,
    (GenerateFileOnGraph_tools_in_order orderGraph id orderFile ⟨"", "http", "bearer"⟩
      (by simp [orderFile])).2
      (by
        intro service hs method hm target ht
        simp only [orderFile, List.mem_singleton] at hs
        subst hs
        simp only [List.mem_cons, List.mem_singleton, List.not_mem_nil, or_false] at hm
        rcases hm with rfl | rfl
        · rcases ht with ht | ht
          · cases ht
            exact ⟨orderMessage, by decide⟩
          · cases ht
            exact ⟨buyerMessage, by decide⟩
        · rcases ht with ht | ht
          · cases ht
            exact ⟨buyerMessage, by decide⟩
          · cases ht
            exact ⟨orderMessage, by decide⟩)⟩

end Generator

/-! ## The test tables of the repository -/

namespace Generator

open Protogen Utcp

/-- The table of `TestToSnakeCase` (`generator_test.go`), with the identity for case
table: the embedding gives the expected string on each row. -/
theorem toSnakeCase_test_table :
    [("WriteDocument", "write_document"), ("GetDocument", "get_document"),
      ("DocumentExists", "document_exists"), ("GetNewsMLDocument", "get_news_ml_document"),
      ("CreateUpload", "create_upload"), ("ValidateNavigaDoc", "validate_naviga_doc"),
      ("SayHello", "say_hello"), ("", ""), ("ABC", "abc"), ("camelCase", "camel_case"),
      ("HTTPServer", "http_server"), ("XMLParser", "xml_parser")].all
      (fun row => toSnakeCase id row.1 = row.2) = true := by
  decide

/-- The table of `TestExtractComment` (`generator_test.go`): the embedding gives the
expected string on each row. -/
theorem extractComment_test_table :
    [("", ""),
      ("Get document retrieves a document from content repo",
        "Get document retrieves a document from content repo"),
      ("WriteDocument is the method you would want to use when creating or updating documents.\n\nThe method also contains functionality to handle optimistic locking.",
        "WriteDocument is the method you would want to use when creating or updating documents. The method also contains functionality to handle optimistic locking."),
      ("  \n  Method to check weather a document exists  \n  ",
        "Method to check weather a document exists")].all
      (fun row => extractComment row.1 = row.2) = true := by
  decide

end Generator
